import Mathlib

/-!
Verification of the nearest-venv extension (src/extension.ts).

Modelling conventions:
* Filesystem paths handled by the directory walk are absolute POSIX paths,
  represented as their component lists (`List String`); the root is `[]`.
  `path.dirname` on such a path is `List.dropLast` and `path.join dir name`
  is `dir ++ [name]`.  `render` produces the path's string form
  (e.g. `render ["a","b"] = "/a/b"`), which is what the source manipulates
  whenever it treats a path as a string (`String.prototype.startsWith`).
* The filesystem is a structure of decidable predicates: which paths pass an
  X_OK access check, which pass an F_OK check, which exist for `fs.existsSync`,
  and a directory-listing oracle for `fs.readdirSync`.
* JavaScript string truthiness (`value ? … : …`, `!!value`) is modelled as
  inequality with the empty string; `Array.prototype.includes` on strings is
  `List.contains`; `Set.has` over a set built from a list is `List.contains`
  on that list.
* The VS Code configuration store and the extension's `workspaceState` are
  explicit association lists threaded through the functions that the source
  mutates via `config.update` / `workspaceState.update`.
-/

/-! ### Generic string helpers (source: dedupeStrings, arraysEqual) -/

/-- Loop of `dedupeStrings`: `seen` is the set of already-emitted values. -/
def dedupeStringsGo (seen : List String) : List String → List String
  | [] => []
  | v :: rest =>
    if seen.contains v then dedupeStringsGo seen rest
    else v :: dedupeStringsGo (v :: seen) rest

/-- Source `dedupeStrings`: keep the first occurrence of each value. -/
def dedupeStrings (values : List String) : List String :=
  dedupeStringsGo [] values

/-- Source `arraysEqual`: length check plus pointwise comparison. -/
def arraysEqual (a b : List String) : Bool :=
  if a.length ≠ b.length then false
  else List.all (a.zip b) (fun p => p.1 = p.2)

/-! ### Path model -/

/-- Slash-separated concatenation of path components. -/
def renderTail : List String → String
  | [] => ""
  | [a] => a
  | a :: rest => a ++ "/" ++ renderTail rest

/-- String form of an absolute path given by its components. -/
def render (p : List String) : String :=
  "/" ++ renderTail p

/-- JavaScript `String.prototype.startsWith` (structural, kernel-reducible). -/
def strStartsWith (s pre : String) : Bool :=
  pre.toList.isPrefixOf s.toList

/-- JavaScript `String.prototype.endsWith`. -/
def strEndsWith (s sub : String) : Bool :=
  sub.toList.isSuffixOf s.toList

/-- Loop of `splitSlash`. -/
def splitSlashGo (acc : List Char) : List Char → List String
  | [] => [String.mk acc.reverse]
  | c :: rest =>
    if c = '/' then String.mk acc.reverse :: splitSlashGo [] rest
    else splitSlashGo (c :: acc) rest

/-- JavaScript `split("/")` used by the path functions. -/
def splitSlash (s : String) : List String :=
  splitSlashGo [] s.toList

/-- Regex `/\\/g` replacement by "/": map each backslash to a slash. -/
def backslashToSlash (s : String) : String :=
  String.mk (s.toList.map (fun c => if c = '\\' then '/' else c))


/-! ### Filesystem model -/

/-- Ambient filesystem: decidable oracles for the access checks and directory
listings the source performs.  `readdir` returns `none` when `readdirSync`
would throw, otherwise the entries as (name, isDirectory) pairs. -/
structure FS where
  execOk : List String → Bool
  fileOk : List String → Bool
  existsSync : List String → Bool
  readdir : List String → Option (List (String × Bool))

/-- Source `fileExists`: X_OK access first, falling back to F_OK; plain
existence is enough even for a non-executable file. -/
def fileExists (fs : FS) (p : List String) : Bool :=
  fs.execOk p || fs.fileOk p

/-- Source `getExecutableCandidates`: fixed platform-dependent interpreter
sub-paths under the venv directory, in order. -/
def getExecutableCandidates (isWin32 : Bool) (venvDir : List String) : List (List String) :=
  if isWin32 then
    [venvDir ++ ["Scripts", "python.exe"], venvDir ++ ["Scripts", "python3.exe"]]
  else
    [venvDir ++ ["bin", "python"], venvDir ++ ["bin", "python3"]]

/-- Body of the per-directory loop of `findNearestVenvPython`: try each
candidate folder name in order; under each, try the interpreter candidates in
order and return the first that exists. -/
structure DiscoveryResult where
  pythonPath : List String
  venvPath : List String
  projectRoot : List String
deriving DecidableEq, Repr

/-- Per-level search of `findNearestVenvPython` (the `for (const name of
folderNames)` loop with its inner candidate loop). -/
def venvMatchAtDir (fs : FS) (isWin32 : Bool) (currentDir : List String) :
    List String → Option DiscoveryResult
  | [] => none
  | name :: rest =>
    let venvDir := currentDir ++ [name]
    match (getExecutableCandidates isWin32 venvDir).find? (fun c => fileExists fs c) with
    | some candidate => some ⟨candidate, venvDir, currentDir⟩
    | none => venvMatchAtDir fs isWin32 currentDir rest

/-- Boundary guard at the top of the walk loop:
`limitToWorkspace && workspaceRoot && !currentDir.startsWith(workspaceRoot)`.
The source compares the rendered path strings with `String.startsWith`. -/
def boundaryBlocks (workspaceRoot : Option (List String)) (currentDir : List String) : Bool :=
  match workspaceRoot with
  | some wr => !(strStartsWith (render currentDir) (render wr))
  | none => false

/-- Walk loop of `findNearestVenvPython`, starting at `currentDir`. -/
def walkFrom (fs : FS) (isWin32 : Bool) (folderNames : List String)
    (workspaceRoot : Option (List String)) (limitToWorkspace : Bool)
    (currentDir : List String) : Option DiscoveryResult :=
  if limitToWorkspace && boundaryBlocks workspaceRoot currentDir then none
  else
    match venvMatchAtDir fs isWin32 currentDir folderNames with
    | some r => some r
    | none =>
      if h : currentDir.dropLast = currentDir then none
      else walkFrom fs isWin32 folderNames workspaceRoot limitToWorkspace currentDir.dropLast
termination_by currentDir.length
decreasing_by
  have hne : currentDir ≠ [] := fun hnil => h (by simp [hnil])
  have hlen : currentDir.length ≠ 0 := by
    simpa [List.length_eq_zero] using hne
  simp only [List.length_dropLast]
  omega

/-- Source `findNearestVenvPython`: start at the directory containing the
file and walk upward. -/
def findNearestVenvPython (fs : FS) (isWin32 : Bool) (fileUri : List String)
    (folderNames : List String) (limitToWorkspace : Bool)
    (workspaceRoot : Option (List String)) : Option DiscoveryResult :=
  walkFrom fs isWin32 folderNames workspaceRoot limitToWorkspace fileUri.dropLast

/-! ### POSIX path string functions (Node `path` module, posix flavour) -/

/-- Component loop of Node's `normalizeString`: `.` is dropped, `..` pops the
stack (kept when above root and `allowAboveRoot`), empty components vanish. -/
def normalizeParts (allowAboveRoot : Bool) (comps : List String) : List String :=
  comps.foldl
    (fun stack c =>
      if c = "" || c = "." then stack
      else if c = ".." then
        match stack with
        | [] => if allowAboveRoot then [".."] else []
        | x :: rest => if x = ".." then ".." :: x :: rest else rest
      else c :: stack)
    []

/-- Node `path.posix.normalize`. -/
def posixNormalize (p : String) : String :=
  if p = "" then "."
  else
    let isAbs := strStartsWith p "/"
    let trailing := strEndsWith p "/"
    let stack := normalizeParts (!isAbs) (splitSlash p)
    let body := String.intercalate "/" stack.reverse
    if body = "" then
      if isAbs then "/" else if trailing then "./" else "."
    else
      (if isAbs then "/" ++ body else body) ++ (if trailing then "/" else "")

/-- Node `path.posix.isAbsolute`. -/
def posixIsAbsolute (p : String) : Bool :=
  strStartsWith p "/"

/-- Node `path.posix.join` restricted to two segments (all the source needs):
skip empty segments, join with a slash, normalize. -/
def posixJoin (a b : String) : String :=
  let segs := [a, b].filter (fun s => s ≠ "")
  if segs.isEmpty then "." else posixNormalize (String.intercalate "/" segs)

/-- Length of the longest common component prefix of two paths. -/
def commonPrefixLen : List String → List String → Nat
  | a :: as, b :: bs => if a = b then commonPrefixLen as bs + 1 else 0
  | _, _ => 0

/-- Node `path.posix.relative` on component lists, rendered as a relative
string (".." per remaining `from` component, then the rest of `to`). -/
def posixRelative (f t : List String) : String :=
  let k := commonPrefixLen f t
  String.intercalate "/" (List.replicate (f.length - k) ".." ++ t.drop k)

/-- Source `normalizeAbsolutePath`: `path.normalize` then backslashes to
forward slashes. -/
def normalizeAbsolutePath (value : String) : String :=
  backslashToSlash (posixNormalize value)

/-- Source `toAbsoluteNormalized`: anchor relative values at the workspace
folder, then normalize. -/
def toAbsoluteNormalized (folderFsPath : String) (value : String) : String :=
  normalizeAbsolutePath (if posixIsAbsolute value then value else posixJoin folderFsPath value)

/-- Source `toWorkspaceRelativePath`: `path.relative` from the folder, fall
back to the absolute path when empty or escaping upward. -/
def toWorkspaceRelativePath (folderFsPath : List String) (absolutePath : List String) : String :=
  let relative := posixRelative folderFsPath absolutePath
  if relative = "" || strStartsWith relative ".." then render absolutePath
  else relative

/-- JavaScript `String.prototype.includes` (substring test). -/
def strContains (s sub : String) : Bool :=
  s.toList.tails.any (fun t => sub.toList.isPrefixOf t)

/-- Regex `/^\/+|\/+$/g` replacement by "": strip leading and trailing runs
of slashes. -/
def stripSlashes (s : String) : String :=
  String.mk (((s.toList.dropWhile (fun c => c = '/')).reverse.dropWhile (fun c => c = '/')).reverse)

/-! ### Managed include state (source: workspaceState blob) -/

/-- Persisted raw JSON-ish values historically stored under the managed-state
key: strings, arrays, objects with `managed`/`history`/`baseline` fields, and
null.  (Numbers and booleans, which `normalizeManagedIncludeEntry` maps to
`undefined`, do not occur in this development and are not modelled.) -/
inductive Raw where
  | rstr (s : String)
  | rarr (xs : List Raw)
  | robj (managed : Option Raw) (history : Option Raw) (baseline : Option Raw)
  | rnull

/-- Source `ManagedIncludeEntry`. -/
structure ManagedIncludeEntry where
  managed : List String
deriving DecidableEq, Repr

/-- JavaScript truthiness restricted to the `Raw` values above: null and the
empty string are falsy, arrays and objects are truthy. -/
def isFalsyRaw : Raw → Bool
  | Raw.rnull => true
  | Raw.rstr s => s = ""
  | Raw.rarr _ => false
  | Raw.robj _ _ _ => false

/-- Source `toManagedArray`: a truthy string becomes a singleton, an array is
filtered down to its strings, anything else is empty. -/
def toManagedArray : Raw → List String
  | Raw.rstr s => if s = "" then [] else [s]
  | Raw.rarr xs => xs.filterMap (fun x => match x with | Raw.rstr s => some s | _ => none)
  | _ => []

/-- JavaScript nullish coalescing `a ?? b` on optional raw fields
(`none` models an absent/undefined field). -/
def coalesce : Option Raw → Option Raw → Option Raw
  | some Raw.rnull, b => b
  | some r, _ => some r
  | none, b => b

/-- Variant of `toManagedArray` taking a possibly-undefined value. -/
def toManagedArrayOpt : Option Raw → List String
  | none => []
  | some r => toManagedArray r

/-- Source `normalizeManagedIncludeEntry`. -/
def normalizeManagedIncludeEntry : Option Raw → Option ManagedIncludeEntry
  | none => none
  | some raw =>
    if isFalsyRaw raw then none
    else
      match raw with
      | Raw.rstr s => some ⟨dedupeStrings (toManagedArray (Raw.rstr s))⟩
      | Raw.rarr xs => some ⟨dedupeStrings (toManagedArray (Raw.rarr xs))⟩
      | Raw.robj m h b => some ⟨dedupeStrings (toManagedArrayOpt (coalesce m (coalesce h b)))⟩
      | Raw.rnull => none

/-- Association-list state stored under the `nearestVenv.managedIncludes`
workspaceState key. -/
abbrev ManagedIncludeState := List (String × Raw)

/-- Object property read `state[key]`. -/
def lookupRaw (state : ManagedIncludeState) (key : String) : Option Raw :=
  (List.find? (fun e => e.1 = key) state).map (fun e => e.2)

/-- Effect of `delete state[key]`. -/
def eraseKey (state : ManagedIncludeState) (key : String) : ManagedIncludeState :=
  List.filter (fun e => e.1 ≠ key) state

/-- Effect of `state[key] = v`. -/
def insertKey (state : ManagedIncludeState) (key : String) (v : Raw) : ManagedIncludeState :=
  eraseKey state key ++ [(key, v)]

/-- Source `getManagedIncludeEntry` (state read plus normalization). -/
def getManagedIncludeEntry (state : ManagedIncludeState) (key : String) :
    Option ManagedIncludeEntry :=
  normalizeManagedIncludeEntry (lookupRaw state key)

/-- Source `setManagedIncludeEntry`: drop empty strings, dedupe, delete the
key entirely when nothing remains, otherwise store `{ managed }`. -/
def setManagedIncludeEntry (state : ManagedIncludeState) (key : String)
    (entry : ManagedIncludeEntry) : ManagedIncludeState :=
  let managed := dedupeStrings (entry.managed.filter (fun value => value ≠ ""))
  if managed.isEmpty then eraseKey state key
  else insertKey state key (Raw.robj (some (Raw.rarr (managed.map Raw.rstr))) none none)

/-! ### Include-list reconciler (source: updateManagedAnalysisInclude) -/

/-- Managed values read in `updateManagedAnalysisInclude`
(`existingEntry?.managed ?? []`). -/
def managedValuesOf (state : ManagedIncludeState) (key : String) : List String :=
  ((getManagedIncludeEntry state key).map ManagedIncludeEntry.managed).getD []

/-- Source line `current.filter((value) => !managedSet.has(value))` wrapped in
`dedupeStrings`. -/
def includeFiltered (current managedValues : List String) : List String :=
  dedupeStrings (current.filter (fun value => !(managedValues.contains value)))

/-- Source line `analysisRoot ? [analysisRoot] : []`. -/
def includeAdditions (analysisRoot : String) : List String :=
  if analysisRoot = "" then [] else [analysisRoot]

/-- Source line `dedupeStrings([...filtered, ...additions])`. -/
def includeFinalValues (current managedValues : List String) (analysisRoot : String) :
    List String :=
  dedupeStrings (includeFiltered current managedValues ++ includeAdditions analysisRoot)

/-- Outcome of one `updateManagedAnalysisInclude` call: the live list after
the call, whether the configuration was written, and the new persisted
state. -/
structure IncludeResult where
  nextLive : List String
  configChanged : Bool
  newState : ManagedIncludeState

/-- Source `updateManagedAnalysisInclude` as a pure state transformer.
`current` is the live `analysis.include` list read from the configuration and
`inspectOk` tells whether `config.inspect("analysis.include")` was defined
(the skip-and-relinquish branch when it is not). -/
def updateManagedAnalysisInclude (state : ManagedIncludeState) (key : String)
    (current : List String) (analysisRoot : String) (inspectOk : Bool) : IncludeResult :=
  if !inspectOk then
    { nextLive := current
      configChanged := false
      newState :=
        if (getManagedIncludeEntry state key).isSome then
          setManagedIncludeEntry state key ⟨[]⟩
        else state }
  else
    let managedValues := managedValuesOf state key
    let finalValues := includeFinalValues current managedValues analysisRoot
    let configChanged := !(arraysEqual current finalValues)
    let nextManaged := dedupeStrings (includeAdditions analysisRoot)
    let managedChanged := !(arraysEqual managedValues nextManaged)
    { nextLive := if configChanged then finalValues else current
      configChanged := configChanged
      newState :=
        if managedChanged || (getManagedIncludeEntry state key).isNone then
          setManagedIncludeEntry state key ⟨nextManaged⟩
        else state }

/-! ### Extra-paths reconciler (source: pruneManagedExtraPaths,
updateManagedExtraPaths) -/

/-- Source lines building `managedNames` in `pruneManagedExtraPaths`. -/
def managedNamesOf (folderNames : List String) : List String :=
  (folderNames.map (fun name => stripSlashes (normalizeAbsolutePath name))).filter
    (fun name => name.length > 0)

/-- Source `matchesManagedName` condition: the normalized value contains a
managed folder name as a path component and is a site-packages path. -/
def matchesManagedName (managedNames : List String) (normalizedValue : String) : Bool :=
  managedNames.any (fun name => strContains normalizedValue ("/" ++ name ++ "/")) &&
  (strContains normalizedValue "/site-packages/" || strEndsWith normalizedValue "/site-packages")

/-- Loop of `pruneManagedExtraPaths` over the existing entries, producing
(retained, removed). -/
def pruneLoop (folderFsPath : String) (normalizedCurrent : String)
    (managedNames : List String) : List String → List String × List String
  | [] => ([], [])
  | value :: rest =>
    let r := pruneLoop folderFsPath normalizedCurrent managedNames rest
    let normalizedValue := toAbsoluteNormalized folderFsPath value
    if matchesManagedName managedNames normalizedValue then
      if normalizedValue = normalizedCurrent then (value :: r.1, r.2)
      else (r.1, value :: r.2)
    else (value :: r.1, r.2)

/-- Source `pruneManagedExtraPaths`. -/
def pruneManagedExtraPaths (existing : List String) (folderFsPath : String)
    (folderNames : List String) (currentSitePackages : String) :
    List String × List String :=
  let normalizedCurrent := normalizeAbsolutePath currentSitePackages
  let managedNames := managedNamesOf folderNames
  if managedNames.isEmpty then (existing, [])
  else pruneLoop folderFsPath normalizedCurrent managedNames existing

/-- Managed extra-paths descriptor handed to `updateManagedExtraPaths`
(`{ folderNames, sitePackages? }`). -/
structure ManagedExtraPathsInfo where
  folderNames : List String
  sitePackages : Option String

/-- Prune phase of `updateManagedExtraPaths`: runs only when
`managed?.sitePackages` is truthy and `managed.folderNames` is non-empty;
`changed` records whether anything was removed. -/
def extraPrunePhase (live : List String) (folderFsPath : String)
    (managed : Option ManagedExtraPathsInfo) : List String × Bool :=
  match managed with
  | some m =>
    match m.sitePackages with
    | some sp =>
      if sp ≠ "" && !m.folderNames.isEmpty then
        let pr := pruneManagedExtraPaths live folderFsPath m.folderNames sp
        (pr.1, !pr.2.isEmpty)
      else (live, false)
    | none => (live, false)
  | none => (live, false)

/-- Addition phase of `updateManagedExtraPaths` (`for (const value of
additions)`), threading the live list and the changed flag. -/
def extraAddLoop (folderFsPath : String) :
    List String → List String → Bool → List String × Bool
  | [], current, changed => (current, changed)
  | value :: rest, current, changed =>
    if value = "" then extraAddLoop folderFsPath rest current changed
    else
      let normalizedAddition := toAbsoluteNormalized folderFsPath value
      if current.any (fun ex => toAbsoluteNormalized folderFsPath ex = normalizedAddition) then
        extraAddLoop folderFsPath rest current changed
      else extraAddLoop folderFsPath rest (current ++ [value]) true

/-- Source `updateManagedExtraPaths` as a pure function: returns the live
list after the call and the `changed` flag (the source writes the list back
exactly when `changed`). -/
def updateManagedExtraPaths (live : List String) (folderFsPath : String)
    (additions : List String) (managed : Option ManagedExtraPathsInfo) :
    List String × Bool :=
  let p := extraPrunePhase live folderFsPath managed
  extraAddLoop folderFsPath additions p.1 p.2

/-! ### Host model: configuration store, editors, workspace folders -/

/-- Configuration values as stored by the host (strings, arrays of arbitrary
values, or other JSON values the source ignores). -/
inductive CVal where
  | cs (s : String)
  | clist (xs : List CVal)
  | cother

/-- Workspace folder handed out by `vscode.workspace.getWorkspaceFolder`. -/
structure WorkspaceFolder where
  fsPath : List String
  name : String
  uriStr : String

/-- Active editor: language id and the file's path components. -/
structure Editor where
  languageId : String
  fileUri : List String

/-- Host state threaded through one discovery/reconcile cycle.  Configuration
keys are flat strings (section, key and folder scope concatenated);
`workspaceFolderOf` models `vscode.workspace.getWorkspaceFolder`;
`includeInspectOk` models whether `config.inspect("analysis.include")` is
defined for a section. -/
structure Host where
  config : String → Option CVal
  includeInspectOk : String → Bool
  state : ManagedIncludeState
  log : List String
  workspaceFolderOf : List String → Option WorkspaceFolder
  fs : FS
  isWin32 : Bool

/-- Scoped configuration key: section-qualified key plus the folder scope. -/
def configKey (fullKey : String) (folder : WorkspaceFolder) : String :=
  fullKey ++ "@" ++ folder.uriStr

/-- Source `getSettingArray`: an array is filtered down to its strings, a
lone string becomes a singleton, anything else is empty. -/
def getSettingArray (v : Option CVal) : List String :=
  match v with
  | some (CVal.clist xs) =>
    xs.filterMap (fun x => match x with | CVal.cs s => some s | _ => none)
  | some (CVal.cs s) => [s]
  | _ => []

/-- Configuration write `config.update(key, value, target)` at folder scope. -/
def configUpdate (host : Host) (fullKey : String) (folder : WorkspaceFolder) (v : CVal) : Host :=
  { host with config := fun k => if k = configKey fullKey folder then some v else host.config k }

/-- Appending one line to the output channel. -/
def logLine (host : Host) (line : String) : Host :=
  { host with log := host.log ++ [line] }

/-- Source `getManagedIncludeKey`. -/
def getManagedIncludeKey (sect : String) (folder : WorkspaceFolder) : String :=
  sect ++ ":" ++ folder.uriStr

/-- Source `isPythonEditor`. -/
def isPythonEditor (editor : Option Editor) : Bool :=
  match editor with
  | none => false
  | some e => e.languageId = "python"

/-- Source `setInterpreterForWorkspaceFolder`: skip when the value already
matches, otherwise write `python.defaultInterpreterPath` at folder scope. -/
def setInterpreterForWorkspaceFolder (host : Host) (pythonPath : String)
    (folder : WorkspaceFolder) : Host :=
  let current := match host.config (configKey "python.defaultInterpreterPath" folder) with
    | some (CVal.cs s) => some s
    | _ => none
  if current = some pythonPath then
    logLine host ("[skip] Already set for '" ++ folder.name ++ "' -> " ++ pythonPath)
  else
    logLine
      (configUpdate host "python.defaultInterpreterPath" folder (CVal.cs pythonPath))
      ("[set] " ++ folder.name ++ ": python.defaultInterpreterPath = " ++ pythonPath)

/-- Loop of `ensureSettingArrayContains`: append missing truthy values. -/
def ensureContainsLoop : List String → List String → Bool → List String × Bool
  | [], next, changed => (next, changed)
  | value :: rest, next, changed =>
    if value = "" then ensureContainsLoop rest next changed
    else if next.contains value then ensureContainsLoop rest next changed
    else ensureContainsLoop rest (next ++ [value]) true

/-- Source `ensureSettingArrayContains` on the host store. -/
def ensureSettingArrayContains (host : Host) (fullKey : String)
    (folder : WorkspaceFolder) (values : List String) : Host × Bool :=
  let current := getSettingArray (host.config (configKey fullKey folder))
  let r := ensureContainsLoop values current false
  if !r.2 then (host, false)
  else (configUpdate host fullKey folder (CVal.clist (r.1.map CVal.cs)), true)

/-- Source `findSitePackagesPath`, posix branch inner loop: first
`python*` directory (sorted descending) containing site-packages, else the
plain `lib/site-packages` fallback. -/
def sitePackagesInLib (fs : FS) (libDir : List String) : Option (List String) :=
  match fs.readdir libDir with
  | none => none
  | some entries =>
    let pythonDirs :=
      (((entries.filter (fun e => e.2 && strStartsWith e.1 "python")).map
        (fun e => e.1)).insertionSort (fun a b => a ≤ b)).reverse
    match pythonDirs.find? (fun d => fs.existsSync (libDir ++ [d, "site-packages"])) with
    | some d => some (libDir ++ [d, "site-packages"])
    | none =>
      if fs.existsSync (libDir ++ ["site-packages"]) then some (libDir ++ ["site-packages"])
      else none

/-- Source `findSitePackagesPath`. -/
def findSitePackagesPath (fs : FS) (isWin32 : Bool) (venvDir : List String) :
    Option (List String) :=
  if isWin32 then
    if fs.existsSync (venvDir ++ ["Lib", "site-packages"]) then
      some (venvDir ++ ["Lib", "site-packages"])
    else none
  else
    match sitePackagesInLib fs (venvDir ++ ["lib"]) with
    | some p => some p
    | none => sitePackagesInLib fs (venvDir ++ ["lib64"])

/-- Source `updateManagedAnalysisInclude` lifted to the host: reads the live
list from the configuration, writes it back when changed, persists the
managed record, returns the changed flag. -/
def updateManagedAnalysisIncludeHost (host : Host) (sect : String)
    (folder : WorkspaceFolder) (analysisRoot : String) : Host × Bool :=
  let key := getManagedIncludeKey sect folder
  let current := getSettingArray (host.config (configKey (sect ++ ".analysis.include") folder))
  let r := updateManagedAnalysisInclude host.state key current analysisRoot
    (host.includeInspectOk sect)
  let host1 := { host with state := r.newState }
  if r.configChanged then
    (configUpdate host1 (sect ++ ".analysis.include") folder
      (CVal.clist (r.nextLive.map CVal.cs)), true)
  else (host1, false)

/-- Source `updateManagedExtraPaths` lifted to the host. -/
def updateManagedExtraPathsHost (host : Host) (sect : String)
    (folder : WorkspaceFolder) (additions : List String)
    (managed : Option ManagedExtraPathsInfo) : Host × Bool :=
  let current := getSettingArray (host.config (configKey (sect ++ ".analysis.extraPaths") folder))
  let r := updateManagedExtraPaths current (render folder.fsPath) additions managed
  if r.2 then
    (configUpdate host (sect ++ ".analysis.extraPaths") folder
      (CVal.clist (r.1.map CVal.cs)), true)
  else (host, false)

/-- Source `configureAnalysisSection`: include list, diagnostic mode,
type-checking mode, excludes, extra paths, in order.  (The host-API `try`
wrapper never fires in this pure model, so the function always reports
success.) -/
def configureAnalysisSection (host : Host) (sect : String) (analysisRoot : String)
    (defaultExcludes : List String) (folder : WorkspaceFolder)
    (extraPaths : List String) (managedExtraPaths : Option ManagedExtraPathsInfo) : Host :=
  let r1 := updateManagedAnalysisIncludeHost host sect folder analysisRoot
  let host1 := r1.1
  let diagnosticMode := match host1.config (configKey (sect ++ ".analysis.diagnosticMode") folder) with
    | some (CVal.cs s) => some s
    | _ => none
  let host2 :=
    if diagnosticMode ≠ some "workspace" then
      configUpdate host1 (sect ++ ".analysis.diagnosticMode") folder (CVal.cs "workspace")
    else host1
  let typeCheckingMode := match host2.config (configKey (sect ++ ".analysis.typeCheckingMode") folder) with
    | some (CVal.cs s) => some s
    | _ => none
  let host3 :=
    if typeCheckingMode = none || typeCheckingMode = some "off" || typeCheckingMode = some "" then
      configUpdate host2 (sect ++ ".analysis.typeCheckingMode") folder (CVal.cs "basic")
    else host2
  let r4 := ensureSettingArrayContains host3 (sect ++ ".analysis.exclude") folder defaultExcludes
  let host4 := r4.1
  let needsExtraPathsUpdate :=
    !extraPaths.isEmpty ||
      (match managedExtraPaths with
       | some m => (match m.sitePackages with | some sp => sp ≠ "" | none => false)
           && !m.folderNames.isEmpty
       | none => false)
  let host5 :=
    if needsExtraPathsUpdate then
      (updateManagedExtraPathsHost host4 sect folder extraPaths managedExtraPaths).1
    else host4
  logLine host5 ("[pyright] configured " ++ sect ++ ".analysis for '" ++ folder.name ++ "'")

/-- Source `configurePyrightVirtualWorkspace`: compute the analysis root and
extra paths, then configure the `python` and `cursorpyright` sections. -/
def configurePyrightVirtualWorkspace (host : Host) (projectRoot venvPath : List String)
    (folder : WorkspaceFolder) (folderNames : List String) : Host :=
  let relativePath := posixRelative folder.fsPath projectRoot
  let analysisRoot := if relativePath = "" then "." else relativePath
  let defaultExcludes :=
    ["**/node_modules", "**/__pycache__", "**/build", "**/dist", "**/.git", "**/.*/**"]
  let sitePackages := findSitePackagesPath host.fs host.isWin32 venvPath
  let extraPaths := match sitePackages with
    | some sp => [toWorkspaceRelativePath folder.fsPath sp]
    | none => []
  let managedExtraPaths : Option ManagedExtraPathsInfo := match sitePackages with
    | some sp => some ⟨folderNames, some (render sp)⟩
    | none => some ⟨folderNames, none⟩
  let host1 := configureAnalysisSection host "python" analysisRoot defaultExcludes folder
    extraPaths managedExtraPaths
  configureAnalysisSection host1 "cursorpyright" analysisRoot defaultExcludes folder
    extraPaths managedExtraPaths

/-- Extension settings read at the start of a cycle (`nearestVenv.*`). -/
structure CycleSettings where
  folderNames : List String
  limitToWorkspace : Bool
  configurePyright : Bool

/-- Source `maybeUpdateInterpreter`: one discovery/reconcile cycle. -/
def maybeUpdateInterpreter (host : Host) (editor : Option Editor)
    (settings : CycleSettings) : Host :=
  if !isPythonEditor editor then host
  else
    match editor with
    | none => host
    | some e =>
      match host.workspaceFolderOf e.fileUri with
      | none => host
      | some folder =>
        let workspaceRoot := (host.workspaceFolderOf e.fileUri).map WorkspaceFolder.fsPath
        match findNearestVenvPython host.fs host.isWin32 e.fileUri settings.folderNames
          settings.limitToWorkspace workspaceRoot with
        | none => logLine host ("[miss] No venv found for " ++ render e.fileUri)
        | some r =>
          let host1 := setInterpreterForWorkspaceFolder host (render r.pythonPath) folder
          if settings.configurePyright then
            configurePyrightVirtualWorkspace host1 r.projectRoot r.venvPath folder
              settings.folderNames
          else host1

/-! ### Spec-side locator (refinement target for the nearest-ancestor claim) -/

/-- Chain of ancestors of a directory, nearest first, ending at the root. -/
def ancestorChain : (dir : List String) → List (List String)
  | [] => [[]]
  | a :: rest => (a :: rest) :: ancestorChain (a :: rest).dropLast
termination_by dir => dir.length
decreasing_by
  simp only [List.length_dropLast, List.length_cons]
  omega

/-- Modelled from the spec: at one level, test candidate names in list order;
under each, test the platform's interpreter sub-paths in order; the first
existing match wins. -/
def levelMatchSpec (fs : FS) (isWin32 : Bool) (dir : List String)
    (folderNames : List String) : Option DiscoveryResult :=
  folderNames.findSome? (fun name =>
    ((getExecutableCandidates isWin32 (dir ++ [name])).find? (fun c => fileExists fs c)).map
      (fun c => ⟨c, dir ++ [name], dir⟩))

/-- Modelled from the spec: return the match in the nearest ancestor that has
one (no boundary restriction). -/
def locateSpec (fs : FS) (isWin32 : Bool) (folderNames : List String)
    (startDir : List String) : Option DiscoveryResult :=
  (ancestorChain startDir).findSome? (fun dir => levelMatchSpec fs isWin32 dir folderNames)

/-- Condition under which the extra-paths reconciler is idempotent for one
desired addition: when pruning is active, the addition must either normalize
to the current site-packages path or fail the managed-name heuristic
(otherwise each run removes and re-appends it). -/
def extraAdditionOk (folderFsPath : String) (managed : Option ManagedExtraPathsInfo)
    (a : String) : Prop :=
  match managed with
  | some m =>
    match m.sitePackages with
    | some sp =>
      sp ≠ "" → m.folderNames ≠ [] →
      (toAbsoluteNormalized folderFsPath a = normalizeAbsolutePath sp ∨
        matchesManagedName (managedNamesOf m.folderNames)
          (toAbsoluteNormalized folderFsPath a) = false)
    | none => True
  | none => True

/-- Invariant of the persisted managed-include store: reading any key yields
either no entry or a non-empty, duplicate-free list of non-empty strings. -/
def managedStoreInv (state : ManagedIncludeState) : Prop :=
  ∀ (key : String) (e : ManagedIncludeEntry),
    getManagedIncludeEntry state key = some e →
    e.managed ≠ [] ∧ (∀ v ∈ e.managed, v ≠ "") ∧ e.managed.Nodup

/-! ### Toolkit lemmas -/

theorem mem_dedupeStringsGo (xs : List String) :
    ∀ (seen : List String) (v : String),
      v ∈ dedupeStringsGo seen xs ↔ v ∈ xs ∧ v ∉ seen := by
  induction xs with
  | nil => intro seen v; simp [dedupeStringsGo]
  | cons a rest ih =>
    intro seen v
    by_cases ha : a ∈ seen
    · have : seen.contains a = true := by simpa using ha
      simp only [dedupeStringsGo, this, if_pos]
      rw [ih]
      constructor
      · rintro ⟨hv, hs⟩; exact ⟨List.mem_cons_of_mem _ hv, hs⟩
      · rintro ⟨hv, hs⟩
        rcases List.mem_cons.mp hv with rfl | hv
        · exact absurd ha hs
        · exact ⟨hv, hs⟩
    · have : seen.contains a = false := by simpa using ha
      simp only [dedupeStringsGo, this, Bool.false_eq_true, if_neg, not_false_iff]
      constructor
      · intro hv
        rcases List.mem_cons.mp hv with rfl | hv
        · exact ⟨List.mem_cons_self _ _, ha⟩
        · rcases (ih (a :: seen) v).mp hv with ⟨h1, h2⟩
          refine ⟨List.mem_cons_of_mem _ h1, fun hs => h2 (List.mem_cons_of_mem _ hs)⟩
      · rintro ⟨hv, hs⟩
        rcases List.mem_cons.mp hv with rfl | hv
        · exact List.mem_cons_self _ _
        · by_cases hva : v = a
          · subst hva; exact List.mem_cons_self _ _
          · refine List.mem_cons_of_mem _ ((ih (a :: seen) v).mpr ⟨hv, ?_⟩)
            intro hmem
            rcases List.mem_cons.mp hmem with h | h
            · exact hva h
            · exact hs h

theorem mem_dedupeStrings (xs : List String) (v : String) :
    v ∈ dedupeStrings xs ↔ v ∈ xs := by
  simp [dedupeStrings, mem_dedupeStringsGo]

theorem nodup_dedupeStringsGo (xs : List String) :
    ∀ seen : List String, (dedupeStringsGo seen xs).Nodup := by
  induction xs with
  | nil => intro seen; simp [dedupeStringsGo]
  | cons a rest ih =>
    intro seen
    by_cases ha : a ∈ seen
    · have : seen.contains a = true := by simpa using ha
      simpa only [dedupeStringsGo, this, if_pos] using ih seen
    · have : seen.contains a = false := by simpa using ha
      simp only [dedupeStringsGo, this, Bool.false_eq_true, if_neg, not_false_iff]
      refine List.nodup_cons.mpr ⟨?_, ih (a :: seen)⟩
      intro hmem
      exact ((mem_dedupeStringsGo rest (a :: seen) a).mp hmem).2 (List.mem_cons_self _ _)

theorem nodup_dedupeStrings (xs : List String) : (dedupeStrings xs).Nodup :=
  nodup_dedupeStringsGo xs []

theorem dedupeStringsGo_eq_self (xs : List String) :
    ∀ seen : List String, xs.Nodup → (∀ v ∈ xs, v ∉ seen) →
      dedupeStringsGo seen xs = xs := by
  induction xs with
  | nil => intro seen _ _; rfl
  | cons a rest ih =>
    intro seen hnd hdisj
    have ha : a ∉ seen := hdisj a (List.mem_cons_self _ _)
    have hac : seen.contains a = false := by simpa using ha
    simp only [dedupeStringsGo, hac, Bool.false_eq_true, if_neg, not_false_iff]
    congr 1
    refine ih (a :: seen) (List.nodup_cons.mp hnd).2 ?_
    intro v hv hmem
    rcases List.mem_cons.mp hmem with rfl | h
    · exact (List.nodup_cons.mp hnd).1 hv
    · exact hdisj v (List.mem_cons_of_mem _ hv) h

theorem dedupeStrings_eq_self (xs : List String) (h : xs.Nodup) :
    dedupeStrings xs = xs :=
  dedupeStringsGo_eq_self xs [] h (by simp)

theorem arraysEqual_cons (x y : String) (xs ys : List String) :
    arraysEqual (x :: xs) (y :: ys) = (decide (x = y) && arraysEqual xs ys) := by
  by_cases h : xs.length = ys.length
  · simp [arraysEqual, h]
  · simp [arraysEqual, h]

theorem arraysEqual_iff (a b : List String) : arraysEqual a b = true ↔ a = b := by
  induction a generalizing b with
  | nil => cases b <;> simp [arraysEqual]
  | cons x xs ih =>
    cases b with
    | nil => simp [arraysEqual]
    | cons y ys => simp [arraysEqual_cons, ih]

theorem pruneLoop_partition (folderFsPath normalizedCurrent : String)
    (managedNames : List String) (xs : List String) :
    (pruneLoop folderFsPath normalizedCurrent managedNames xs).1.Sublist xs ∧
    (pruneLoop folderFsPath normalizedCurrent managedNames xs).2.Sublist xs ∧
    (pruneLoop folderFsPath normalizedCurrent managedNames xs).1.length +
      (pruneLoop folderFsPath normalizedCurrent managedNames xs).2.length = xs.length := by
  induction xs with
  | nil => exact ⟨List.Sublist.refl _, List.Sublist.refl _, rfl⟩
  | cons v rest ih =>
    obtain ⟨h1, h2, h3⟩ := ih
    by_cases hm : matchesManagedName managedNames (toAbsoluteNormalized folderFsPath v) = true
    · by_cases hc : toAbsoluteNormalized folderFsPath v = normalizedCurrent
      · simp only [pruneLoop, if_pos hm, if_pos hc]
        refine ⟨List.Sublist.cons₂ v h1, List.Sublist.cons v h2, ?_⟩
        simp only [List.length_cons]
        omega
      · simp only [pruneLoop, if_pos hm, if_neg hc]
        refine ⟨List.Sublist.cons v h1, List.Sublist.cons₂ v h2, ?_⟩
        simp only [List.length_cons]
        omega
    · simp only [pruneLoop, if_neg hm]
      refine ⟨List.Sublist.cons₂ v h1, List.Sublist.cons v h2, ?_⟩
      simp only [List.length_cons]
      omega

theorem pruneLoop_retains_current (folderFsPath normalizedCurrent : String)
    (managedNames : List String) (xs : List String) (v : String) (hv : v ∈ xs)
    (h : matchesManagedName managedNames (toAbsoluteNormalized folderFsPath v) = false ∨
      toAbsoluteNormalized folderFsPath v = normalizedCurrent) :
    v ∈ (pruneLoop folderFsPath normalizedCurrent managedNames xs).1 := by
  induction xs with
  | nil => cases hv
  | cons a rest ih =>
    by_cases hm : matchesManagedName managedNames (toAbsoluteNormalized folderFsPath a) = true
    · by_cases hc : toAbsoluteNormalized folderFsPath a = normalizedCurrent
      · simp only [pruneLoop, if_pos hm, if_pos hc]
        rcases List.mem_cons.mp hv with rfl | hmem
        · exact List.mem_cons_self _ _
        · exact List.mem_cons_of_mem _ (ih hmem)
      · simp only [pruneLoop, if_pos hm, if_neg hc]
        rcases List.mem_cons.mp hv with rfl | hmem
        · rcases h with h | h
          · rw [hm] at h; cases h
          · exact absurd h hc
        · exact ih hmem
    · simp only [pruneLoop, if_neg hm]
      rcases List.mem_cons.mp hv with rfl | hmem
      · exact List.mem_cons_self _ _
      · exact List.mem_cons_of_mem _ (ih hmem)

theorem pruneLoop_id_of_all_good (folderFsPath normalizedCurrent : String)
    (managedNames : List String) (xs : List String)
    (h : ∀ v ∈ xs, matchesManagedName managedNames (toAbsoluteNormalized folderFsPath v) = true →
      toAbsoluteNormalized folderFsPath v = normalizedCurrent) :
    pruneLoop folderFsPath normalizedCurrent managedNames xs = (xs, []) := by
  induction xs with
  | nil => rfl
  | cons a rest ih =>
    have hrec := ih (fun v hv => h v (List.mem_cons_of_mem _ hv))
    by_cases hm : matchesManagedName managedNames (toAbsoluteNormalized folderFsPath a) = true
    · have hc := h a (List.mem_cons_self _ _) hm
      simp only [pruneLoop, if_pos hm, if_pos hc, hrec]
    · simp only [pruneLoop, if_neg hm, hrec]

theorem pruneLoop_removed_reason (folderFsPath normalizedCurrent : String)
    (managedNames : List String) (xs : List String) (v : String)
    (hv : v ∈ (pruneLoop folderFsPath normalizedCurrent managedNames xs).2) :
    matchesManagedName managedNames (toAbsoluteNormalized folderFsPath v) = true ∧
      toAbsoluteNormalized folderFsPath v ≠ normalizedCurrent := by
  induction xs with
  | nil => cases hv
  | cons a rest ih =>
    by_cases hm : matchesManagedName managedNames (toAbsoluteNormalized folderFsPath a) = true
    · by_cases hc : toAbsoluteNormalized folderFsPath a = normalizedCurrent
      · simp only [pruneLoop, if_pos hm, if_pos hc] at hv
        exact ih hv
      · simp only [pruneLoop, if_pos hm, if_neg hc] at hv
        rcases List.mem_cons.mp hv with rfl | hmem
        · exact ⟨hm, hc⟩
        · exact ih hmem
    · simp only [pruneLoop, if_neg hm] at hv
      exact ih hv

theorem updateManagedAnalysisInclude_eq (state : ManagedIncludeState) (key : String)
    (current : List String) (analysisRoot : String) :
    updateManagedAnalysisInclude state key current analysisRoot true =
      { nextLive :=
          if !(arraysEqual current (includeFinalValues current (managedValuesOf state key) analysisRoot)) then
            includeFinalValues current (managedValuesOf state key) analysisRoot
          else current
        configChanged :=
          !(arraysEqual current (includeFinalValues current (managedValuesOf state key) analysisRoot))
        newState :=
          if !(arraysEqual (managedValuesOf state key) (dedupeStrings (includeAdditions analysisRoot)))
              || (getManagedIncludeEntry state key).isNone then
            setManagedIncludeEntry state key ⟨dedupeStrings (includeAdditions analysisRoot)⟩
          else state } := rfl

theorem mem_includeFinalValues (current managedValues : List String) (analysisRoot v : String)
    (hv : v ∈ current) (hm : v ∉ managedValues) :
    v ∈ includeFinalValues current managedValues analysisRoot := by
  unfold includeFinalValues
  rw [mem_dedupeStrings]
  refine List.mem_append.mpr (Or.inl ?_)
  unfold includeFiltered
  rw [mem_dedupeStrings]
  refine List.mem_filter.mpr ⟨hv, ?_⟩
  simpa using hm

/-- C5: the claim says `changed` is a set-equality check; in fact
`arraysEqual` is positional, so the corrected statement is that the flag is
true exactly when the computed final list differs from the live list as an
ordered sequence. -/
theorem claim5_changed_iff_sequence_difference (state : ManagedIncludeState) (key : String)
    (current : List String) (analysisRoot : String) :
    (updateManagedAnalysisInclude state key current analysisRoot true).configChanged = true ↔
      includeFinalValues current (managedValuesOf state key) analysisRoot ≠ current := by
  rw [updateManagedAnalysisInclude_eq]
  simp only [Bool.not_eq_true']
  constructor
  · intro h hEq
    rw [hEq] at h
    have hself : arraysEqual current current = true := (arraysEqual_iff _ _).mpr rfl
    rw [hself] at h
    cases h
  · intro h
    rcases Bool.eq_false_or_eq_true (arraysEqual current
      (includeFinalValues current (managedValuesOf state key) analysisRoot)) with hb | hb
    · exact absurd ((arraysEqual_iff _ _).mp hb).symm h
    · exact hb

/-- C5 counterexample: with live list ["root","x"], managed record ["root"]
and desired addition "root", the result ["x","root"] has the same members as
the live list, yet `changed` is reported true — the comparison is positional,
not set-based. -/
theorem claim5_counterexample :
    (updateManagedAnalysisInclude [("k", Raw.rarr [Raw.rstr "root"])] "k"
        ["root", "x"] "root" true).configChanged = true ∧
    List.Perm ((updateManagedAnalysisInclude [("k", Raw.rarr [Raw.rstr "root"])] "k"
        ["root", "x"] "root" true).nextLive) ["root", "x"] := by
  constructor
  · rfl
  · exact List.Perm.swap "root" "x" []

/-- C2 (amended): the include-list reconciler never drops a live entry absent
from the managed record; the extra-paths pruning step retains every entry
that fails the managed-name site-packages heuristic or whose normalized form
equals the current site-packages path.  (An entry matching the heuristic is
removed even though the extra-paths managed record stores no entry values,
which is what refutes the claim as stated.) -/
theorem claim2_amended :
    (∀ (state : ManagedIncludeState) (key : String) (current : List String)
        (analysisRoot v : String), v ∈ current → v ∉ managedValuesOf state key →
        v ∈ (updateManagedAnalysisInclude state key current analysisRoot true).nextLive) ∧
    (∀ (existing : List String) (folderFsPath : String) (folderNames : List String)
        (currentSitePackages v : String), v ∈ existing →
        (matchesManagedName (managedNamesOf folderNames)
            (toAbsoluteNormalized folderFsPath v) = false ∨
          toAbsoluteNormalized folderFsPath v = normalizeAbsolutePath currentSitePackages) →
        v ∈ (pruneManagedExtraPaths existing folderFsPath folderNames currentSitePackages).1) := by
  constructor
  · intro state key current analysisRoot v hv hm
    rw [updateManagedAnalysisInclude_eq]
    by_cases harr : arraysEqual current
        (includeFinalValues current (managedValuesOf state key) analysisRoot) = true
    · simpa [harr] using hv
    · have hb : arraysEqual current
          (includeFinalValues current (managedValuesOf state key) analysisRoot) = false :=
        Bool.eq_false_iff.mpr harr
      simpa [hb] using mem_includeFinalValues current (managedValuesOf state key) analysisRoot v hv hm
  · intro existing folderFsPath folderNames currentSitePackages v hv h
    unfold pruneManagedExtraPaths
    by_cases he : (managedNamesOf folderNames).isEmpty = true
    · simpa [he] using hv
    · simp only [he, Bool.false_eq_true, if_neg, not_false_iff]
      exact pruneLoop_retains_current folderFsPath (normalizeAbsolutePath currentSitePackages)
        (managedNamesOf folderNames) existing v hv h

/-- C2 witness at concrete inputs. -/
theorem claim2_amended_witness :
    "u" ∈ (updateManagedAnalysisInclude [] "k" ["u"] "r" true).nextLive ∧
    "user/custom" ∈ (pruneManagedExtraPaths ["/other/.venv/lib/site-packages", "user/custom"]
        "/ws" [".venv"] "/ws/.venv/lib/site-packages").1 := by
  constructor
  · exact claim2_amended.1 [] "k" ["u"] "r" "u" (by simp) (by simp [managedValuesOf,
      getManagedIncludeEntry, lookupRaw, normalizeManagedIncludeEntry])
  · exact claim2_amended.2 ["/other/.venv/lib/site-packages", "user/custom"] "/ws" [".venv"]
      "/ws/.venv/lib/site-packages" "user/custom" (by simp) (Or.inl (by rfl))

/-- C2 counterexample: the live entry "/other/.venv/lib/site-packages" was
never recorded in any managed store (the extra-paths managed record holds no
values at all), yet pruning removes it because it merely resembles a managed
site-packages path. -/
theorem claim2_counterexample :
    "/other/.venv/lib/site-packages" ∈
        (["/other/.venv/lib/site-packages", "user/custom"] : List String) ∧
    (pruneManagedExtraPaths ["/other/.venv/lib/site-packages", "user/custom"] "/ws" [".venv"]
        "/ws/.venv/lib/site-packages").1 = ["user/custom"] ∧
    (pruneManagedExtraPaths ["/other/.venv/lib/site-packages", "user/custom"] "/ws" [".venv"]
        "/ws/.venv/lib/site-packages").2 = ["/other/.venv/lib/site-packages"] := by
  exact ⟨by simp, rfl, rfl⟩

theorem pruneLoop_eq_filter (folderFsPath normalizedCurrent : String)
    (managedNames : List String) (xs : List String) :
    pruneLoop folderFsPath normalizedCurrent managedNames xs =
      (xs.filter (fun v =>
          !(matchesManagedName managedNames (toAbsoluteNormalized folderFsPath v))
            || decide (toAbsoluteNormalized folderFsPath v = normalizedCurrent)),
        xs.filter (fun v =>
          matchesManagedName managedNames (toAbsoluteNormalized folderFsPath v)
            && !(decide (toAbsoluteNormalized folderFsPath v = normalizedCurrent)))) := by
  induction xs with
  | nil => rfl
  | cons a rest ih =>
    by_cases hm : matchesManagedName managedNames (toAbsoluteNormalized folderFsPath a) = true
    · by_cases hc : toAbsoluteNormalized folderFsPath a = normalizedCurrent
      · have hkeep : (!(matchesManagedName managedNames (toAbsoluteNormalized folderFsPath a))
            || decide (toAbsoluteNormalized folderFsPath a = normalizedCurrent)) = true := by
          rw [decide_eq_true hc, Bool.or_true]
        have hrem : (matchesManagedName managedNames (toAbsoluteNormalized folderFsPath a)
            && !(decide (toAbsoluteNormalized folderFsPath a = normalizedCurrent))) = false := by
          rw [decide_eq_true hc]
          simp
        simp only [pruneLoop, if_pos hm, if_pos hc, List.filter_cons, hkeep, hrem, ih]
        simp
      · have hkeep : (!(matchesManagedName managedNames (toAbsoluteNormalized folderFsPath a))
            || decide (toAbsoluteNormalized folderFsPath a = normalizedCurrent)) = false := by
          rw [decide_eq_false hc, hm]
          rfl
        have hrem : (matchesManagedName managedNames (toAbsoluteNormalized folderFsPath a)
            && !(decide (toAbsoluteNormalized folderFsPath a = normalizedCurrent))) = true := by
          rw [decide_eq_false hc, hm]
          rfl
        simp only [pruneLoop, if_pos hm, if_neg hc, List.filter_cons, hkeep, hrem, ih]
        simp
    · have hm' : matchesManagedName managedNames (toAbsoluteNormalized folderFsPath a) = false :=
        Bool.eq_false_iff.mpr hm
      have hkeep : (!(matchesManagedName managedNames (toAbsoluteNormalized folderFsPath a))
          || decide (toAbsoluteNormalized folderFsPath a = normalizedCurrent)) = true := by
        rw [hm']
        rfl
      have hrem : (matchesManagedName managedNames (toAbsoluteNormalized folderFsPath a)
          && !(decide (toAbsoluteNormalized folderFsPath a = normalizedCurrent))) = false := by
        rw [hm']
        rfl
      simp only [pruneLoop, if_neg hm, List.filter_cons, hkeep, hrem, ih]
      simp

/-- C10: pruning partitions its input: retained and removed are exactly the
complementary filters of the input by the keep predicate (fails the
managed-name heuristic, or normalizes to the current site-packages path), so
every input element lands in exactly one output and relative order is
preserved; an element whose normalized form equals the normalized current
site-packages path is always retained; and when the candidate folder-name
list normalizes to empty, nothing is removed. -/
theorem claim10_prune_postcondition (existing : List String) (folderFsPath : String)
    (folderNames : List String) (currentSitePackages : String) :
    ((pruneManagedExtraPaths existing folderFsPath folderNames currentSitePackages).1 =
        existing.filter (fun v =>
          !(matchesManagedName (managedNamesOf folderNames)
              (toAbsoluteNormalized folderFsPath v))
            || decide (toAbsoluteNormalized folderFsPath v =
                normalizeAbsolutePath currentSitePackages)) ∧
      (pruneManagedExtraPaths existing folderFsPath folderNames currentSitePackages).2 =
        existing.filter (fun v =>
          matchesManagedName (managedNamesOf folderNames)
              (toAbsoluteNormalized folderFsPath v)
            && !(decide (toAbsoluteNormalized folderFsPath v =
                normalizeAbsolutePath currentSitePackages)))) ∧
    (∀ v ∈ existing,
      toAbsoluteNormalized folderFsPath v = normalizeAbsolutePath currentSitePackages →
      v ∈ (pruneManagedExtraPaths existing folderFsPath folderNames currentSitePackages).1) ∧
    (managedNamesOf folderNames = [] →
      pruneManagedExtraPaths existing folderFsPath folderNames currentSitePackages =
        (existing, [])) := by
  unfold pruneManagedExtraPaths
  by_cases hmn : (managedNamesOf folderNames).isEmpty = true
  · have hnil : managedNamesOf folderNames = [] := List.isEmpty_iff.mp hmn
    rw [hnil]
    simp only [List.isEmpty_nil, if_pos]
    refine ⟨⟨?_, ?_⟩, fun v hv _ => hv, fun _ => trivial⟩
    · exact (List.filter_eq_self.mpr (fun a _ => rfl)).symm
    · exact (List.filter_eq_nil_iff.mpr (fun a _ => by simp [matchesManagedName])).symm
  · rw [if_neg hmn, pruneLoop_eq_filter]
    refine ⟨⟨rfl, rfl⟩, ?_, ?_⟩
    · intro v hv hnorm
      refine List.mem_filter.mpr ⟨hv, ?_⟩
      rw [decide_eq_true hnorm, Bool.or_true]
    · intro hnil
      exact absurd (by simp [hnil]) hmn

/-- C10 witness at concrete inputs. -/
theorem claim10_prune_postcondition_witness :
    "/ws/.venv/lib/site-packages" ∈
      (pruneManagedExtraPaths ["/ws/.venv/lib/site-packages"] "/ws" [".venv"]
        "/ws/.venv/lib/site-packages").1 ∧
    pruneManagedExtraPaths ["a"] "/ws" ["/"] "/sp" = (["a"], []) := by
  constructor
  · exact (claim10_prune_postcondition ["/ws/.venv/lib/site-packages"] "/ws" [".venv"]
      "/ws/.venv/lib/site-packages").2.1 "/ws/.venv/lib/site-packages" (by simp) (by rfl)
  · exact (claim10_prune_postcondition ["a"] "/ws" ["/"] "/sp").2.2 (by rfl)

theorem lookupRaw_cons (e : String × Raw) (rest : ManagedIncludeState) (key : String) :
    lookupRaw (e :: rest) key = if e.1 = key then some e.2 else lookupRaw rest key := by
  by_cases he : e.1 = key <;> simp [lookupRaw, List.find?, he]

theorem eraseKey_cons (e : String × Raw) (rest : ManagedIncludeState) (key : String) :
    eraseKey (e :: rest) key =
      if e.1 = key then eraseKey rest key else e :: eraseKey rest key := by
  by_cases he : e.1 = key <;> simp [eraseKey, List.filter_cons, he]

theorem lookupRaw_eraseKey_self (state : ManagedIncludeState) (key : String) :
    lookupRaw (eraseKey state key) key = none := by
  induction state with
  | nil => rfl
  | cons e rest ih =>
    rw [eraseKey_cons]
    by_cases he : e.1 = key
    · rw [if_pos he]; exact ih
    · rw [if_neg he, lookupRaw_cons, if_neg he]; exact ih

theorem lookupRaw_eraseKey_other (state : ManagedIncludeState) (key other : String)
    (h : other ≠ key) : lookupRaw (eraseKey state key) other = lookupRaw state other := by
  induction state with
  | nil => rfl
  | cons e rest ih =>
    rw [eraseKey_cons, lookupRaw_cons]
    by_cases he : e.1 = key
    · have hneq : ¬(e.1 = other) := by rw [he]; exact fun hx => h hx.symm
      rw [if_pos he, if_neg hneq]; exact ih
    · rw [if_neg he, lookupRaw_cons]
      by_cases heo : e.1 = other
      · rw [if_pos heo, if_pos heo]
      · rw [if_neg heo, if_neg heo]; exact ih

theorem lookupRaw_append (s₁ s₂ : ManagedIncludeState) (key : String) :
    lookupRaw (s₁ ++ s₂) key =
      match lookupRaw s₁ key with
      | some v => some v
      | none => lookupRaw s₂ key := by
  induction s₁ with
  | nil => simp [lookupRaw]
  | cons e rest ih =>
    rw [List.cons_append, lookupRaw_cons, lookupRaw_cons]
    by_cases he : e.1 = key
    · rw [if_pos he, if_pos he]
    · rw [if_neg he, if_neg he]; exact ih

theorem lookupRaw_insertKey_self (state : ManagedIncludeState) (key : String) (v : Raw) :
    lookupRaw (insertKey state key v) key = some v := by
  unfold insertKey
  rw [lookupRaw_append, lookupRaw_eraseKey_self]
  simp [lookupRaw]

theorem lookupRaw_insertKey_other (state : ManagedIncludeState) (key other : String) (v : Raw)
    (h : other ≠ key) : lookupRaw (insertKey state key v) other = lookupRaw state other := by
  unfold insertKey
  rw [lookupRaw_append, lookupRaw_eraseKey_other state key other h]
  have hk : ¬((key, v).1 = other) := fun hx => h hx.symm
  cases hx : lookupRaw state other with
  | some w => rfl
  | none => rw [lookupRaw_cons, if_neg hk]; rfl

theorem toManagedArray_rarr_map (l : List String) :
    toManagedArray (Raw.rarr (l.map Raw.rstr)) = l := by
  induction l with
  | nil => rfl
  | cons a rest ih => simpa [toManagedArray] using ih

theorem getManagedIncludeEntry_set_self (state : ManagedIncludeState) (key : String)
    (entry : ManagedIncludeEntry) :
    getManagedIncludeEntry (setManagedIncludeEntry state key entry) key =
      (if (dedupeStrings (entry.managed.filter (fun value => value ≠ ""))).isEmpty then none
       else some ⟨dedupeStrings (entry.managed.filter (fun value => value ≠ ""))⟩) := by
  unfold setManagedIncludeEntry
  by_cases he : (dedupeStrings (entry.managed.filter (fun value => value ≠ ""))).isEmpty = true
  · simp only [he, if_pos]
    unfold getManagedIncludeEntry
    rw [lookupRaw_eraseKey_self]
    rfl
  · simp only [he, Bool.false_eq_true, if_neg, not_false_iff]
    unfold getManagedIncludeEntry
    rw [lookupRaw_insertKey_self]
    have hnodup : (dedupeStrings (entry.managed.filter (fun value => value ≠ ""))).Nodup :=
      nodup_dedupeStrings _
    simp only [normalizeManagedIncludeEntry, isFalsyRaw, coalesce, toManagedArrayOpt,
      toManagedArray_rarr_map, Bool.false_eq_true, if_neg, not_false_iff]
    rw [dedupeStrings_eq_self _ hnodup]

theorem getManagedIncludeEntry_set_other (state : ManagedIncludeState) (key other : String)
    (entry : ManagedIncludeEntry) (h : other ≠ key) :
    getManagedIncludeEntry (setManagedIncludeEntry state key entry) other =
      getManagedIncludeEntry state other := by
  unfold setManagedIncludeEntry getManagedIncludeEntry
  by_cases he : (dedupeStrings (entry.managed.filter (fun value => value ≠ ""))).isEmpty = true
  · simp only [he, if_pos]
    rw [lookupRaw_eraseKey_other state key other h]
  · simp only [he, Bool.false_eq_true, if_neg, not_false_iff]
    rw [lookupRaw_insertKey_other state key other _ h]

theorem setManagedIncludeEntry_deletes (state : ManagedIncludeState) (key : String)
    (entry : ManagedIncludeEntry)
    (h : dedupeStrings (entry.managed.filter (fun value => value ≠ "")) = []) :
    lookupRaw (setManagedIncludeEntry state key entry) key = none := by
  simp only [setManagedIncludeEntry, h, List.isEmpty_nil, if_pos]
  exact lookupRaw_eraseKey_self state key

/-- C9: the write path of the persisted managed-include store establishes
and preserves the invariant that every readable entry is a non-empty,
duplicate-free list of non-empty strings, and a write whose cleaned list is
empty deletes the key instead of storing an empty list. -/
theorem claim9_store_invariant :
    managedStoreInv [] ∧
    (∀ (state : ManagedIncludeState) (key : String) (entry : ManagedIncludeEntry),
      managedStoreInv state → managedStoreInv (setManagedIncludeEntry state key entry)) ∧
    (∀ (state : ManagedIncludeState) (key : String) (entry : ManagedIncludeEntry),
      dedupeStrings (entry.managed.filter (fun value => value ≠ "")) = [] →
      lookupRaw (setManagedIncludeEntry state key entry) key = none) := by
  refine ⟨?_, ?_, ?_⟩
  · intro key e h
    simp [getManagedIncludeEntry, lookupRaw, normalizeManagedIncludeEntry] at h
  · intro state key entry hInv other e h
    by_cases hk : other = key
    · subst hk
      rw [getManagedIncludeEntry_set_self] at h
      by_cases he : (dedupeStrings (entry.managed.filter (fun value => value ≠ ""))).isEmpty = true
      · rw [if_pos he] at h
        cases h
      · rw [if_neg he] at h
        have hcl := Option.some.inj h
        subst hcl
        refine ⟨by simpa using he, ?_, nodup_dedupeStrings _⟩
        intro v hv
        rw [mem_dedupeStrings] at hv
        have := (List.mem_filter.mp hv).2
        simpa using this
    · rw [getManagedIncludeEntry_set_other state key other entry hk] at h
      exact hInv other e h
  · intro state key entry h
    exact setManagedIncludeEntry_deletes state key entry h

/-- C9 witness: one concrete write with duplicates and empty strings, and one
write whose cleaned list is empty (key deleted). -/
theorem claim9_store_invariant_witness :
    managedStoreInv (setManagedIncludeEntry [] "k" ⟨["a", "a", ""]⟩) ∧
    lookupRaw (setManagedIncludeEntry [] "k2" ⟨["", ""]⟩) "k2" = none := by
  constructor
  · exact claim9_store_invariant.2.1 [] "k" ⟨["a", "a", ""]⟩ claim9_store_invariant.1
  · exact claim9_store_invariant.2.2 [] "k2" ⟨["", ""]⟩ (by rfl)

/-- C6: with empty desired additions (empty analysis root) and a non-empty
previously-managed record, the reconciler removes every previously-managed
entry from the live list and deletes the record's key from the store. -/
theorem claim6_empty_additions_clears (state : ManagedIncludeState) (key : String)
    (current : List String) (e : ManagedIncludeEntry)
    (hentry : getManagedIncludeEntry state key = some e) (hne : e.managed ≠ []) :
    (∀ v ∈ e.managed, v ∉ (updateManagedAnalysisInclude state key current "" true).nextLive) ∧
    lookupRaw (updateManagedAnalysisInclude state key current "" true).newState key = none := by
  have hmv : managedValuesOf state key = e.managed := by
    simp [managedValuesOf, hentry]
  have hnotfinal : ∀ v ∈ e.managed, v ∉ includeFinalValues current e.managed "" := by
    intro v hv hmem
    unfold includeFinalValues at hmem
    rw [mem_dedupeStrings] at hmem
    rcases List.mem_append.mp hmem with hmem | hmem
    · unfold includeFiltered at hmem
      rw [mem_dedupeStrings] at hmem
      have hnot : v ∉ e.managed := by simpa using (List.mem_filter.mp hmem).2
      exact hnot hv
    · simp [includeAdditions] at hmem
  constructor
  · intro v hv
    rw [updateManagedAnalysisInclude_eq]
    simp only [hmv]
    by_cases harr : arraysEqual current (includeFinalValues current e.managed "") = true
    · have hEq : current = includeFinalValues current e.managed "" := (arraysEqual_iff _ _).mp harr
      simp only [harr, Bool.not_true, Bool.false_eq_true, if_neg, not_false_iff]
      rw [hEq]
      exact hnotfinal v hv
    · have hb : arraysEqual current (includeFinalValues current e.managed "") = false :=
        Bool.eq_false_iff.mpr harr
      simp only [hb, Bool.not_false, if_pos]
      exact hnotfinal v hv
  · rw [updateManagedAnalysisInclude_eq]
    simp only [hmv]
    have hnm : dedupeStrings (includeAdditions "") = [] := rfl
    have harr : arraysEqual e.managed [] = false := by
      rcases Bool.eq_false_or_eq_true (arraysEqual e.managed []) with hb | hb
      · exact absurd ((arraysEqual_iff _ _).mp hb) hne
      · exact hb
    simp only [hnm, harr, Bool.not_false, Bool.true_or, if_pos]
    exact setManagedIncludeEntry_deletes state key ⟨[]⟩ rfl

/-- C6 witness at a concrete store and live list. -/
theorem claim6_empty_additions_clears_witness :
    "a" ∉ (updateManagedAnalysisInclude [("k", Raw.rarr [Raw.rstr "a"])] "k"
        ["a", "u"] "" true).nextLive ∧
    lookupRaw (updateManagedAnalysisInclude [("k", Raw.rarr [Raw.rstr "a"])] "k"
        ["a", "u"] "" true).newState "k" = none := by
  have h := claim6_empty_additions_clears [("k", Raw.rarr [Raw.rstr "a"])] "k" ["a", "u"]
    ⟨["a"]⟩ (by rfl) (by simp)
  exact ⟨h.1 "a" (by simp), h.2⟩

/-- C7: a file passing only the F_OK check (present but not executable)
still counts as found, and the interpreter sub-path candidates are tried in
order with the first existing one winning. -/
theorem claim7_existence_sufficient :
    (∀ (fs : FS) (p : List String), fs.execOk p = false → fs.fileOk p = true →
      fileExists fs p = true) ∧
    (∀ (fs : FS) (isWin32 : Bool) (venvDir c : List String) (rest : List (List String)),
      getExecutableCandidates isWin32 venvDir = c :: rest → fileExists fs c = true →
      (getExecutableCandidates isWin32 venvDir).find? (fun x => fileExists fs x) = some c) ∧
    (∀ (fs : FS) (isWin32 : Bool) (venvDir c c' : List String),
      getExecutableCandidates isWin32 venvDir = [c, c'] →
      fileExists fs c = false → fileExists fs c' = true →
      (getExecutableCandidates isWin32 venvDir).find? (fun x => fileExists fs x) = some c') := by
  refine ⟨?_, ?_, ?_⟩
  · intro fs p h1 h2
    unfold fileExists
    rw [h1, h2]
    rfl
  · intro fs isWin32 venvDir c rest heq hc
    rw [heq]
    simp [List.find?, hc]
  · intro fs isWin32 venvDir c c' heq hc hc'
    rw [heq]
    simp [List.find?, hc, hc']

/-- C7 witness: a filesystem where the first candidate exists only via F_OK,
and one where only the second candidate exists. -/
theorem claim7_existence_sufficient_witness :
    fileExists
      ⟨fun _ => false, fun p => decide (p = ["v", "bin", "python"]), fun _ => false,
        fun _ => none⟩ ["v", "bin", "python"] = true ∧
    (getExecutableCandidates false ["v"]).find?
      (fun x => fileExists
        ⟨fun _ => false, fun p => decide (p = ["v", "bin", "python"]), fun _ => false,
          fun _ => none⟩ x) = some ["v", "bin", "python"] ∧
    (getExecutableCandidates false ["v"]).find?
      (fun x => fileExists
        ⟨fun _ => false, fun p => decide (p = ["v", "bin", "python3"]), fun _ => false,
          fun _ => none⟩ x) = some ["v", "bin", "python3"] := by
  refine ⟨?_, ?_, ?_⟩
  · exact claim7_existence_sufficient.1
      ⟨fun _ => false, fun p => decide (p = ["v", "bin", "python"]), fun _ => false,
        fun _ => none⟩ ["v", "bin", "python"] rfl (by decide)
  · exact claim7_existence_sufficient.2.1
      ⟨fun _ => false, fun p => decide (p = ["v", "bin", "python"]), fun _ => false,
        fun _ => none⟩ false ["v"] ["v", "bin", "python"] [["v", "bin", "python3"]]
      rfl (by decide)
  · exact claim7_existence_sufficient.2.2
      ⟨fun _ => false, fun p => decide (p = ["v", "bin", "python3"]), fun _ => false,
        fun _ => none⟩ false ["v"] ["v", "bin", "python"] ["v", "bin", "python3"]
      rfl (by decide) (by decide)

theorem venvMatchAtDir_eq_levelMatchSpec (fs : FS) (isWin32 : Bool) (dir : List String)
    (folderNames : List String) :
    venvMatchAtDir fs isWin32 dir folderNames = levelMatchSpec fs isWin32 dir folderNames := by
  induction folderNames with
  | nil => rfl
  | cons name rest ih =>
    unfold venvMatchAtDir levelMatchSpec
    cases hf : (getExecutableCandidates isWin32 (dir ++ [name])).find? (fun c => fileExists fs c) with
    | some candidate => simp [List.findSome?_cons, hf]
    | none =>
      simp only [List.findSome?_cons, hf, Option.map_none']
      exact ih

theorem venvMatchAtDir_projectRoot (fs : FS) (isWin32 : Bool) (dir : List String)
    (folderNames : List String) (r : DiscoveryResult)
    (h : venvMatchAtDir fs isWin32 dir folderNames = some r) : r.projectRoot = dir := by
  induction folderNames with
  | nil => cases h
  | cons name rest ih =>
    unfold venvMatchAtDir at h
    cases hf : (getExecutableCandidates isWin32 (dir ++ [name])).find? (fun c => fileExists fs c) with
    | some candidate =>
      simp only [hf] at h
      cases h
      rfl
    | none =>
      simp only [hf] at h
      exact ih h

theorem dropLast_isPrefix (l : List String) : l.dropLast <+: l := by
  rw [List.dropLast_eq_take]
  exact List.take_prefix _ _

theorem ancestorChain_cons (dir : List String) (hne : dir ≠ []) :
    ancestorChain dir = dir :: ancestorChain dir.dropLast := by
  cases dir with
  | nil => exact absurd rfl hne
  | cons a l => rw [ancestorChain]

theorem walkFrom_no_limit_eq_locateSpec (fs : FS) (isWin32 : Bool)
    (folderNames : List String) (workspaceRoot : Option (List String)) :
    ∀ (n : Nat) (dir : List String), dir.length ≤ n →
      walkFrom fs isWin32 folderNames workspaceRoot false dir =
        locateSpec fs isWin32 folderNames dir := by
  intro n
  induction n with
  | zero =>
    intro dir hlen
    have hdir : dir = [] := List.length_eq_zero.mp (Nat.le_zero.mp hlen)
    subst hdir
    rw [walkFrom]
    simp only [Bool.false_and, Bool.false_eq_true, if_neg, not_false_iff]
    rw [venvMatchAtDir_eq_levelMatchSpec]
    unfold locateSpec ancestorChain
    cases h : levelMatchSpec fs isWin32 [] folderNames with
    | some r => simp [List.findSome?_cons, h]
    | none => simp [List.findSome?_cons, h, List.dropLast_nil]
  | succ n ih =>
    intro dir hlen
    by_cases hdir : dir = []
    · subst hdir
      exact ih [] (by simp)
    · rw [walkFrom]
      simp only [Bool.false_and, Bool.false_eq_true, if_neg, not_false_iff]
      rw [venvMatchAtDir_eq_levelMatchSpec]
      rw [locateSpec, ancestorChain_cons dir hdir]
      cases h : levelMatchSpec fs isWin32 dir folderNames with
      | some r => simp [List.findSome?_cons, h]
      | none =>
        simp only [List.findSome?_cons, h]
        have hd : dir.dropLast ≠ dir := by
          intro hEq
          have := congrArg List.length hEq
          have hlen0 : dir.length ≠ 0 := by
            simpa [List.length_eq_zero] using hdir
          rw [List.length_dropLast] at this
          omega
        rw [dif_neg hd]
        have hstep : dir.dropLast.length ≤ n := by
          have := List.length_dropLast dir
          have hlen0 : dir.length ≠ 0 := by
            simpa [List.length_eq_zero] using hdir
          omega
        rw [ih dir.dropLast hstep]
        rfl

/-- C3: without boundary restriction the walk returns exactly the spec's
nearest-ancestor first-name first-candidate match: `findNearestVenvPython`
equals `locateSpec`, the fold of the per-level spec-side matcher over the
ancestor chain of the file's directory, nearest first. -/
theorem claim3_nearest_ancestor (fs : FS) (isWin32 : Bool) (fileUri : List String)
    (folderNames : List String) (workspaceRoot : Option (List String)) :
    findNearestVenvPython fs isWin32 fileUri folderNames false workspaceRoot =
      locateSpec fs isWin32 folderNames fileUri.dropLast := by
  unfold findNearestVenvPython
  exact walkFrom_no_limit_eq_locateSpec fs isWin32 folderNames workspaceRoot
    fileUri.dropLast.length fileUri.dropLast (Nat.le_refl _)

theorem renderTail_cons_of_ne (a : String) (l : List String) (h : l ≠ []) :
    renderTail (a :: l) = a ++ "/" ++ renderTail l := by
  cases l with
  | nil => exact absurd rfl h
  | cons b l' => rfl

theorem length_pos_of_ne_empty (s : String) (h : s ≠ "") : 0 < s.length := by
  cases s with
  | mk data =>
    cases data with
    | nil => exact absurd rfl h
    | cons c cs => simp [String.length]

theorem renderTail_length_lt (c : String) (q : List String) (hc : c ≠ "") :
    ∀ p : List String, (renderTail p).length < (renderTail (p ++ c :: q)).length := by
  intro p
  induction p with
  | nil =>
    cases q with
    | nil => simpa [renderTail] using length_pos_of_ne_empty c hc
    | cons d q' =>
      rw [List.nil_append, renderTail_cons_of_ne c (d :: q') (by simp),
        String.length_append, String.length_append]
      have h0 : (renderTail []).length = 0 := rfl
      have h1 : ("/" : String).length = 1 := rfl
      have h2 := length_pos_of_ne_empty c hc
      omega
  | cons a p' ih =>
    cases p' with
    | nil =>
      simp only [List.cons_append, List.nil_append,
        renderTail_cons_of_ne a (c :: q) (by simp), String.length_append, renderTail]
      have : (0 : Nat) < ("/" : String).length := by decide
      have := length_pos_of_ne_empty c hc
      cases q with
      | nil => simp [renderTail]; omega
      | cons d q' =>
        rw [renderTail_cons_of_ne c (d :: q') (by simp), String.length_append,
          String.length_append]
        omega
    | cons b p'' =>
      rw [renderTail_cons_of_ne a (b :: p'') (by simp), List.cons_append,
        renderTail_cons_of_ne a ((b :: p'') ++ c :: q) (by simp),
        String.length_append, String.length_append, String.length_append,
        String.length_append]
      have := ih
      omega

theorem render_length_lt (p : List String) (c : String) (q : List String) (hc : c ≠ "") :
    (render p).length < (render (p ++ c :: q)).length := by
  unfold render
  rw [String.length_append, String.length_append]
  have := renderTail_length_lt c q hc p
  omega

theorem strStartsWith_length_le (s pre : String) (h : strStartsWith s pre = true) :
    pre.length ≤ s.length := by
  unfold strStartsWith at h
  exact List.IsPrefix.length_le (List.isPrefixOf_iff_prefix.mp h)

theorem walkFrom_boundary_stringPrefix (fs : FS) (isWin32 : Bool)
    (folderNames : List String) (wr : List String) :
    ∀ (n : Nat) (dir : List String), dir.length ≤ n →
      ∀ r : DiscoveryResult,
        walkFrom fs isWin32 folderNames (some wr) true dir = some r →
        strStartsWith (render r.projectRoot) (render wr) = true := by
  intro n
  induction n with
  | zero =>
    intro dir hlen r h
    have hdir : dir = [] := List.length_eq_zero.mp (Nat.le_zero.mp hlen)
    subst hdir
    rw [walkFrom] at h
    by_cases hb : boundaryBlocks (some wr) [] = true
    · simp [hb] at h
    · have hb' : boundaryBlocks (some wr) [] = false := Bool.eq_false_iff.mpr hb
      simp only [hb', Bool.and_false, Bool.false_eq_true, if_neg, not_false_iff] at h
      cases hm : venvMatchAtDir fs isWin32 [] folderNames with
      | some rOut =>
        rw [hm] at h
        have h2 : venvMatchAtDir fs isWin32 [] folderNames = some r := by
          rw [hm]; exact h
        rw [venvMatchAtDir_projectRoot fs isWin32 [] folderNames r h2]
        simpa [boundaryBlocks] using hb'
      | none => simp [hm, List.dropLast_nil] at h
  | succ n ih =>
    intro dir hlen r h
    rw [walkFrom] at h
    by_cases hb : boundaryBlocks (some wr) dir = true
    · simp [hb] at h
    · have hb' : boundaryBlocks (some wr) dir = false := Bool.eq_false_iff.mpr hb
      simp only [hb', Bool.and_false, Bool.false_eq_true, if_neg, not_false_iff] at h
      cases hm : venvMatchAtDir fs isWin32 dir folderNames with
      | some rOut =>
        rw [hm] at h
        have h2 : venvMatchAtDir fs isWin32 dir folderNames = some r := by
          rw [hm]; exact h
        rw [venvMatchAtDir_projectRoot fs isWin32 dir folderNames r h2]
        simpa [boundaryBlocks] using hb'
      | none =>
        rw [hm] at h
        by_cases hd : dir.dropLast = dir
        · rw [dif_pos hd] at h
          cases h
        · rw [dif_neg hd] at h
          have hne : dir ≠ [] := fun hnil => hd (by simp [hnil])
          have hlen0 : dir.length ≠ 0 := by
            simpa [List.length_eq_zero] using hne
          have hstep : dir.dropLast.length ≤ n := by
            have := List.length_dropLast dir
            omega
          exact ih dir.dropLast hstep r h

theorem walkFrom_projectRoot_isPrefix (fs : FS) (isWin32 : Bool)
    (folderNames : List String) (workspaceRoot : Option (List String))
    (limitToWorkspace : Bool) :
    ∀ (n : Nat) (dir : List String), dir.length ≤ n →
      ∀ r : DiscoveryResult,
        walkFrom fs isWin32 folderNames workspaceRoot limitToWorkspace dir = some r →
        r.projectRoot <+: dir := by
  intro n
  induction n with
  | zero =>
    intro dir hlen r h
    have hdir : dir = [] := List.length_eq_zero.mp (Nat.le_zero.mp hlen)
    subst hdir
    rw [walkFrom] at h
    by_cases hg : (limitToWorkspace && boundaryBlocks workspaceRoot []) = true
    · simp [hg] at h
    · rw [if_neg hg] at h
      cases hm : venvMatchAtDir fs isWin32 [] folderNames with
      | some rOut =>
        rw [hm] at h
        have h2 : venvMatchAtDir fs isWin32 [] folderNames = some r := by
          rw [hm]; exact h
        rw [venvMatchAtDir_projectRoot fs isWin32 [] folderNames r h2]
      | none => simp [hm, List.dropLast_nil] at h
  | succ n ih =>
    intro dir hlen r h
    rw [walkFrom] at h
    by_cases hg : (limitToWorkspace && boundaryBlocks workspaceRoot dir) = true
    · simp [hg] at h
    · rw [if_neg hg] at h
      cases hm : venvMatchAtDir fs isWin32 dir folderNames with
      | some rOut =>
        rw [hm] at h
        have h2 : venvMatchAtDir fs isWin32 dir folderNames = some r := by
          rw [hm]; exact h
        rw [venvMatchAtDir_projectRoot fs isWin32 dir folderNames r h2]
      | none =>
        rw [hm] at h
        by_cases hd : dir.dropLast = dir
        · rw [dif_pos hd] at h
          cases h
        · rw [dif_neg hd] at h
          have hne : dir ≠ [] := fun hnil => hd (by simp [hnil])
          have hlen0 : dir.length ≠ 0 := by
            simpa [List.length_eq_zero] using hne
          have hstep : dir.dropLast.length ≤ n := by
            have := List.length_dropLast dir
            omega
          exact List.IsPrefix.trans (ih dir.dropLast hstep r h) (dropLast_isPrefix dir)

/-- C4 (amended): the boundary check is a rendered-string prefix test, not a
subtree test.  Every returned project root passes the string-prefix test
against the boundary, and when the starting directory is a component-wise
descendant of a boundary with non-empty components the project root really is
inside the boundary subtree; but a sibling directory whose name merely
extends the boundary string can still be searched (see the counterexample). -/
theorem claim4_amended :
    (∀ (fs : FS) (isWin32 : Bool) (fileUri folderNames wr : List String)
        (r : DiscoveryResult),
      findNearestVenvPython fs isWin32 fileUri folderNames true (some wr) = some r →
      strStartsWith (render r.projectRoot) (render wr) = true) ∧
    (∀ (fs : FS) (isWin32 : Bool) (fileUri folderNames wr : List String)
        (r : DiscoveryResult),
      findNearestVenvPython fs isWin32 fileUri folderNames true (some wr) = some r →
      (∀ comp ∈ wr, comp ≠ "") → wr <+: fileUri.dropLast → wr <+: r.projectRoot) := by
  constructor
  · intro fs isWin32 fileUri folderNames wr r h
    unfold findNearestVenvPython at h
    exact walkFrom_boundary_stringPrefix fs isWin32 folderNames wr fileUri.dropLast.length
      fileUri.dropLast (Nat.le_refl _) r h
  · intro fs isWin32 fileUri folderNames wr r h hcomps hstart
    unfold findNearestVenvPython at h
    have hp : r.projectRoot <+: fileUri.dropLast :=
      walkFrom_projectRoot_isPrefix fs isWin32 folderNames (some wr) true
        fileUri.dropLast.length fileUri.dropLast (Nat.le_refl _) r h
    have hs : strStartsWith (render r.projectRoot) (render wr) = true :=
      walkFrom_boundary_stringPrefix fs isWin32 folderNames wr fileUri.dropLast.length
        fileUri.dropLast (Nat.le_refl _) r h
    rcases List.prefix_or_prefix_of_prefix hstart hp with hcase | hcase
    · exact hcase
    · by_cases heq : r.projectRoot = wr
      · rw [← heq]
      · obtain ⟨t, ht⟩ := hcase
        cases t with
        | nil => exact absurd (by rw [← ht, List.append_nil]) heq
        | cons c q =>
          have hcmem : c ∈ wr := by
            rw [← ht]
            exact List.mem_append.mpr (Or.inr (List.mem_cons_self _ _))
          have hc : c ≠ "" := hcomps c hcmem
          have hlt := render_length_lt r.projectRoot c q hc
          rw [ht] at hlt
          have hle := strStartsWith_length_le (render r.projectRoot) (render wr) hs
          omega

/-- C4 witness: a venv directly under the boundary folder is found and lies
inside the boundary subtree. -/
theorem claim4_amended_witness :
    strStartsWith (render ["work", "proj"]) (render ["work"]) = true ∧
    (["work"] : List String) <+: ["work", "proj"] := by
  have hfind : findNearestVenvPython
      ⟨fun p => decide (p = ["work", "proj", ".venv", "bin", "python"]), fun _ => false,
        fun _ => false, fun _ => none⟩ false ["work", "proj", "m.py"] [".venv"] true
      (some ["work"]) =
      some ⟨["work", "proj", ".venv", "bin", "python"], ["work", "proj", ".venv"],
        ["work", "proj"]⟩ := by
    unfold findNearestVenvPython
    rw [walkFrom]
    rfl
  constructor
  · exact claim4_amended.1
      ⟨fun p => decide (p = ["work", "proj", ".venv", "bin", "python"]), fun _ => false,
        fun _ => false, fun _ => none⟩ false ["work", "proj", "m.py"] [".venv"] ["work"]
      ⟨["work", "proj", ".venv", "bin", "python"], ["work", "proj", ".venv"],
        ["work", "proj"]⟩ hfind
  · exact claim4_amended.2
      ⟨fun p => decide (p = ["work", "proj", ".venv", "bin", "python"]), fun _ => false,
        fun _ => false, fun _ => none⟩ false ["work", "proj", "m.py"] [".venv"] ["work"]
      ⟨["work", "proj", ".venv", "bin", "python"], ["work", "proj", ".venv"],
        ["work", "proj"]⟩ hfind (by decide) (by decide)

/-- C4 counterexample: with boundary /work, the walk happily searches the
sibling directory /work2 (its rendered path has "/work" as a string prefix)
and returns a project root outside the boundary subtree. -/
theorem claim4_counterexample :
    findNearestVenvPython
      ⟨fun p => decide (p = ["work2", ".venv", "bin", "python"]), fun _ => false,
        fun _ => false, fun _ => none⟩ false ["work2", "main.py"] [".venv"] true
      (some ["work"]) =
      some ⟨["work2", ".venv", "bin", "python"], ["work2", ".venv"], ["work2"]⟩ ∧
    ¬((["work"] : List String) <+: ["work2"]) := by
  constructor
  · unfold findNearestVenvPython
    rw [walkFrom]
    rfl
  · decide

theorem extraAddLoop_extends (folderFsPath : String) :
    ∀ (adds current : List String) (changed : Bool),
      current <+: (extraAddLoop folderFsPath adds current changed).1 := by
  intro adds
  induction adds with
  | nil => intro current changed; exact List.prefix_refl _
  | cons a rest ih =>
    intro current changed
    by_cases ha : a = ""
    · simp only [extraAddLoop, if_pos ha]
      exact ih current changed
    · simp only [extraAddLoop, if_neg ha]
      by_cases hex : current.any
          (fun ex => toAbsoluteNormalized folderFsPath ex =
            toAbsoluteNormalized folderFsPath a) = true
      · rw [if_pos hex]
        exact ih current changed
      · rw [if_neg hex]
        exact List.IsPrefix.trans ⟨[a], rfl⟩ (ih (current ++ [a]) true)

theorem mem_extraAddLoop (folderFsPath : String) :
    ∀ (adds current : List String) (changed : Bool) (v : String),
      v ∈ (extraAddLoop folderFsPath adds current changed).1 →
      v ∈ current ∨ (v ∈ adds ∧ v ≠ "") := by
  intro adds
  induction adds with
  | nil => intro current changed v hv; exact Or.inl hv
  | cons a rest ih =>
    intro current changed v hv
    by_cases ha : a = ""
    · simp only [extraAddLoop, if_pos ha] at hv
      rcases ih current changed v hv with h | ⟨h1, h2⟩
      · exact Or.inl h
      · exact Or.inr ⟨List.mem_cons_of_mem _ h1, h2⟩
    · simp only [extraAddLoop, if_neg ha] at hv
      by_cases hex : current.any
          (fun ex => toAbsoluteNormalized folderFsPath ex =
            toAbsoluteNormalized folderFsPath a) = true
      · rw [if_pos hex] at hv
        rcases ih current changed v hv with h | ⟨h1, h2⟩
        · exact Or.inl h
        · exact Or.inr ⟨List.mem_cons_of_mem _ h1, h2⟩
      · rw [if_neg hex] at hv
        rcases ih (current ++ [a]) true v hv with h | ⟨h1, h2⟩
        · rcases List.mem_append.mp h with h | h
          · exact Or.inl h
          · rcases List.mem_singleton.mp h with rfl
            exact Or.inr ⟨List.mem_cons_self _ _, ha⟩
        · exact Or.inr ⟨List.mem_cons_of_mem _ h1, h2⟩

theorem extraAddLoop_covers (folderFsPath : String) :
    ∀ (adds current : List String) (changed : Bool) (a : String), a ∈ adds → a ≠ "" →
      ∃ e ∈ (extraAddLoop folderFsPath adds current changed).1,
        toAbsoluteNormalized folderFsPath e = toAbsoluteNormalized folderFsPath a := by
  intro adds
  induction adds with
  | nil => intro current changed a ha; cases ha
  | cons b rest ih =>
    intro current changed a ha hne
    rcases List.mem_cons.mp ha with rfl | hmem
    · by_cases hex : current.any
          (fun ex => toAbsoluteNormalized folderFsPath ex =
            toAbsoluteNormalized folderFsPath a) = true
      · obtain ⟨e, he, heq⟩ := List.any_eq_true.mp hex
        refine ⟨e, ?_, by simpa using heq⟩
        simp only [extraAddLoop, if_neg hne, if_pos hex]
        exact List.IsPrefix.subset (extraAddLoop_extends folderFsPath rest current changed) he
      · refine ⟨a, ?_, rfl⟩
        simp only [extraAddLoop, if_neg hne, if_neg hex]
        refine List.IsPrefix.subset (extraAddLoop_extends folderFsPath rest (current ++ [a]) true) ?_
        exact List.mem_append.mpr (Or.inr (List.mem_singleton.mpr rfl))
    · by_cases hb : b = ""
      · simp only [extraAddLoop, if_pos hb]
        exact ih current changed a hmem hne
      · simp only [extraAddLoop, if_neg hb]
        by_cases hex : current.any
            (fun ex => toAbsoluteNormalized folderFsPath ex =
              toAbsoluteNormalized folderFsPath b) = true
        · rw [if_pos hex]
          exact ih current changed a hmem hne
        · rw [if_neg hex]
          exact ih (current ++ [b]) true a hmem hne

theorem extraAddLoop_stable (folderFsPath : String) :
    ∀ (adds current : List String) (changed : Bool),
      (∀ a ∈ adds, a ≠ "" →
        ∃ e ∈ current, toAbsoluteNormalized folderFsPath e = toAbsoluteNormalized folderFsPath a) →
      extraAddLoop folderFsPath adds current changed = (current, changed) := by
  intro adds
  induction adds with
  | nil => intro current changed _; rfl
  | cons a rest ih =>
    intro current changed hcov
    by_cases ha : a = ""
    · simp only [extraAddLoop, if_pos ha]
      exact ih current changed (fun b hb => hcov b (List.mem_cons_of_mem _ hb))
    · obtain ⟨e, he, heq⟩ := hcov a (List.mem_cons_self _ _) ha
      have hex : current.any
          (fun ex => toAbsoluteNormalized folderFsPath ex =
            toAbsoluteNormalized folderFsPath a) = true := by
        refine List.any_eq_true.mpr ⟨e, he, ?_⟩
        simpa using heq
      simp only [extraAddLoop, if_neg ha, if_pos hex]
      exact ih current changed (fun b hb => hcov b (List.mem_cons_of_mem _ hb))

theorem mem_pruneLoop_retained_good (folderFsPath normalizedCurrent : String)
    (managedNames : List String) (xs : List String) (v : String)
    (hv : v ∈ (pruneLoop folderFsPath normalizedCurrent managedNames xs).1)
    (hm : matchesManagedName managedNames (toAbsoluteNormalized folderFsPath v) = true) :
    toAbsoluteNormalized folderFsPath v = normalizedCurrent := by
  induction xs with
  | nil => cases hv
  | cons a rest ih =>
    by_cases ham : matchesManagedName managedNames (toAbsoluteNormalized folderFsPath a) = true
    · by_cases hac : toAbsoluteNormalized folderFsPath a = normalizedCurrent
      · simp only [pruneLoop, if_pos ham, if_pos hac] at hv
        rcases List.mem_cons.mp hv with rfl | hmem
        · exact hac
        · exact ih hmem
      · simp only [pruneLoop, if_pos ham, if_neg hac] at hv
        exact ih hv
    · simp only [pruneLoop, if_neg ham] at hv
      rcases List.mem_cons.mp hv with rfl | hmem
      · exact absurd hm ham
      · exact ih hmem

theorem updateManagedAnalysisInclude_nextLive (state : ManagedIncludeState) (key : String)
    (current : List String) (analysisRoot : String) :
    (updateManagedAnalysisInclude state key current analysisRoot true).nextLive =
      includeFinalValues current (managedValuesOf state key) analysisRoot := by
  rw [updateManagedAnalysisInclude_eq]
  by_cases harr : arraysEqual current
      (includeFinalValues current (managedValuesOf state key) analysisRoot) = true
  · simp only [harr, Bool.not_true, Bool.false_eq_true, if_neg, not_false_iff]
    exact (arraysEqual_iff _ _).mp harr
  · have hb : arraysEqual current
        (includeFinalValues current (managedValuesOf state key) analysisRoot) = false :=
      Bool.eq_false_iff.mpr harr
    simp [hb]

theorem dedupeStrings_includeAdditions (analysisRoot : String) (h : analysisRoot ≠ "") :
    dedupeStrings (includeAdditions analysisRoot) = [analysisRoot] := by
  rw [includeAdditions, if_neg h]
  rfl

theorem managedValuesOf_after_update (state : ManagedIncludeState) (key : String)
    (current : List String) (analysisRoot : String) :
    managedValuesOf (updateManagedAnalysisInclude state key current analysisRoot true).newState
        key =
      dedupeStrings (includeAdditions analysisRoot) := by
  rw [updateManagedAnalysisInclude_eq]
  by_cases hcond : (!(arraysEqual (managedValuesOf state key)
      (dedupeStrings (includeAdditions analysisRoot)))
        || (getManagedIncludeEntry state key).isNone) = true
  · simp only [hcond, if_pos]
    unfold managedValuesOf
    rw [getManagedIncludeEntry_set_self]
    by_cases hroot : analysisRoot = ""
    · subst hroot
      rfl
    · rw [dedupeStrings_includeAdditions analysisRoot hroot]
      have hfilter : ([analysisRoot].filter (fun value => value ≠ "")) = [analysisRoot] := by
        simp [hroot]
      rw [hfilter]
      rfl
  · simp only [hcond, Bool.false_eq_true, if_neg, not_false_iff]
    have hcond' := hcond
    rw [Bool.or_eq_true] at hcond'
    push_neg at hcond'
    obtain ⟨h1, _⟩ := hcond'
    have harr : arraysEqual (managedValuesOf state key)
        (dedupeStrings (includeAdditions analysisRoot)) = true := by
      rcases Bool.eq_false_or_eq_true (arraysEqual (managedValuesOf state key)
        (dedupeStrings (includeAdditions analysisRoot))) with hb | hb
      · exact hb
      · exact absurd (by rw [hb]; rfl) h1
    exact (arraysEqual_iff _ _).mp harr

theorem includeFiltered_nil_managed (current : List String) :
    includeFiltered current [] = dedupeStrings current := by
  unfold includeFiltered
  congr 1
  exact List.filter_eq_self.mpr (fun a _ => rfl)

theorem nodup_includeFinalValues (current managedValues : List String) (analysisRoot : String) :
    (includeFinalValues current managedValues analysisRoot).Nodup := by
  unfold includeFinalValues
  exact nodup_dedupeStrings _

theorem root_not_mem_includeFiltered (current managedValues : List String)
    (analysisRoot : String)
    (h : analysisRoot ∈ managedValues ∨ analysisRoot ∉ current) :
    analysisRoot ∉ includeFiltered current managedValues := by
  intro hmem
  unfold includeFiltered at hmem
  rw [mem_dedupeStrings] at hmem
  have h2 := List.mem_filter.mp hmem
  rcases h with h | h
  · have : managedValues.contains analysisRoot = true := by simpa using h
    rw [this] at h2
    simp at h2
  · exact h h2.1

theorem includeFinalValues_append_form (current managedValues : List String)
    (analysisRoot : String) (hroot : analysisRoot ≠ "")
    (h : analysisRoot ∈ managedValues ∨ analysisRoot ∉ current) :
    includeFinalValues current managedValues analysisRoot =
      includeFiltered current managedValues ++ [analysisRoot] := by
  unfold includeFinalValues
  rw [includeAdditions, if_neg hroot]
  refine dedupeStrings_eq_self _ ?_
  rw [List.nodup_append]
  refine ⟨?_, List.nodup_singleton _, ?_⟩
  · unfold includeFiltered
    exact nodup_dedupeStrings _
  · intro a ha hb
    rcases List.mem_singleton.mp hb with rfl
    exact root_not_mem_includeFiltered current managedValues a h ha

theorem includeFinalValues_idem (current managedValues : List String) (analysisRoot : String)
    (h : analysisRoot = "" ∨ analysisRoot ∈ managedValues ∨ analysisRoot ∉ current) :
    includeFinalValues (includeFinalValues current managedValues analysisRoot)
        (dedupeStrings (includeAdditions analysisRoot)) analysisRoot =
      includeFinalValues current managedValues analysisRoot := by
  have hF : (includeFinalValues current managedValues analysisRoot).Nodup :=
    nodup_includeFinalValues current managedValues analysisRoot
  by_cases hroot : analysisRoot = ""
  · subst hroot
    show dedupeStrings (includeFiltered (includeFinalValues current managedValues "")
        (dedupeStrings (includeAdditions "")) ++ includeAdditions "") =
      includeFinalValues current managedValues ""
    have hnil : includeAdditions "" = [] := rfl
    rw [hnil, List.append_nil]
    show dedupeStrings (includeFiltered (includeFinalValues current managedValues "")
        (dedupeStrings [])) = includeFinalValues current managedValues ""
    rw [show dedupeStrings ([] : List String) = [] from rfl]
    rw [includeFiltered_nil_managed]
    rw [dedupeStrings_eq_self _ hF]
    exact dedupeStrings_eq_self _ hF
  · have hdisj : analysisRoot ∈ managedValues ∨ analysisRoot ∉ current := by
      rcases h with h | h
      · exact absurd h hroot
      · exact h
    have hform := includeFinalValues_append_form current managedValues analysisRoot hroot hdisj
    have hnm := dedupeStrings_includeAdditions analysisRoot hroot
    rw [hnm, hform]
    have hrootnotin := root_not_mem_includeFiltered current managedValues analysisRoot hdisj
    have hfilterstep :
        includeFiltered (includeFiltered current managedValues ++ [analysisRoot])
            [analysisRoot] =
          includeFiltered current managedValues := by
      unfold includeFiltered
      rw [List.filter_append]
      have h1 : (dedupeStrings
          (current.filter (fun value => !(managedValues.contains value)))).filter
            (fun value => !([analysisRoot].contains value)) =
          dedupeStrings (current.filter (fun value => !(managedValues.contains value))) := by
        refine List.filter_eq_self.mpr ?_
        intro a ha
        have hne : a ≠ analysisRoot := by
          intro hEq
          subst hEq
          exact hrootnotin (by unfold includeFiltered; exact ha)
        simpa using hne
      have h2 : ([analysisRoot].filter (fun value => !([analysisRoot].contains value))) =
          ([] : List String) := by
        simp
      rw [h1, h2, List.append_nil]
      have hnodupIn : (dedupeStrings
          (current.filter (fun value => !(managedValues.contains value)))).Nodup :=
        nodup_dedupeStrings _
      exact dedupeStrings_eq_self _ hnodupIn
    show dedupeStrings (includeFiltered (includeFiltered current managedValues ++ [analysisRoot])
        [analysisRoot] ++ includeAdditions analysisRoot) =
      includeFiltered current managedValues ++ [analysisRoot]
    rw [hfilterstep, includeAdditions, if_neg hroot]
    rw [hform] at hF
    exact dedupeStrings_eq_self _ hF

theorem updateManagedExtraPaths_eq (live : List String) (folderFsPath : String)
    (additions : List String) (managed : Option ManagedExtraPathsInfo) :
    updateManagedExtraPaths live folderFsPath additions managed =
      extraAddLoop folderFsPath additions (extraPrunePhase live folderFsPath managed).1
        (extraPrunePhase live folderFsPath managed).2 := rfl

/-- C1 (amended): reconciliation is idempotent under a proviso on the desired
additions.  Include list: a second run reports changed = false provided the
analysis root is empty, already managed, or absent from the live list.
Extra paths: a second run reports changed = false provided every non-empty
addition either normalizes to the current site-packages path or fails the
managed-name pruning heuristic.  Without the proviso a second run can report
changed = true (see the counterexample). -/
theorem claim1_amended_idempotence :
    (∀ (state : ManagedIncludeState) (key : String) (current : List String)
        (analysisRoot : String),
      (analysisRoot = "" ∨ analysisRoot ∈ managedValuesOf state key ∨
        analysisRoot ∉ current) →
      (updateManagedAnalysisInclude
        (updateManagedAnalysisInclude state key current analysisRoot true).newState key
        (updateManagedAnalysisInclude state key current analysisRoot true).nextLive
        analysisRoot true).configChanged = false) ∧
    (∀ (live : List String) (folderFsPath : String) (additions : List String)
        (managed : Option ManagedExtraPathsInfo),
      (∀ a ∈ additions, a ≠ "" → extraAdditionOk folderFsPath managed a) →
      (updateManagedExtraPaths
        (updateManagedExtraPaths live folderFsPath additions managed).1 folderFsPath
        additions managed).2 = false) := by
  constructor
  · intro state key current analysisRoot h
    have hrun2 := updateManagedAnalysisInclude_eq
      (updateManagedAnalysisInclude state key current analysisRoot true).newState key
      (updateManagedAnalysisInclude state key current analysisRoot true).nextLive analysisRoot
    rw [hrun2]
    show (!(arraysEqual
        (updateManagedAnalysisInclude state key current analysisRoot true).nextLive
        (includeFinalValues
          (updateManagedAnalysisInclude state key current analysisRoot true).nextLive
          (managedValuesOf
            (updateManagedAnalysisInclude state key current analysisRoot true).newState key)
          analysisRoot))) = false
    rw [managedValuesOf_after_update, updateManagedAnalysisInclude_nextLive,
      includeFinalValues_idem current (managedValuesOf state key) analysisRoot h]
    rw [(arraysEqual_iff _ _).mpr rfl]
    rfl
  · intro live folderFsPath additions managed h
    have hstable : ∀ (m : Option ManagedExtraPathsInfo),
        extraPrunePhase (updateManagedExtraPaths live folderFsPath additions m).1
            folderFsPath m =
          ((updateManagedExtraPaths live folderFsPath additions m).1, false) →
        (updateManagedExtraPaths (updateManagedExtraPaths live folderFsPath additions m).1
          folderFsPath additions m).2 = false := by
      intro m hph
      rw [updateManagedExtraPaths_eq (updateManagedExtraPaths live folderFsPath additions m).1,
        hph]
      have hcov : ∀ a ∈ additions, a ≠ "" →
          ∃ e ∈ (updateManagedExtraPaths live folderFsPath additions m).1,
            toAbsoluteNormalized folderFsPath e = toAbsoluteNormalized folderFsPath a := by
        intro a ha hne
        rw [updateManagedExtraPaths_eq]
        exact extraAddLoop_covers folderFsPath additions _ _ a ha hne
      rw [extraAddLoop_stable folderFsPath additions _ false hcov]
    rcases managed with _ | ⟨fns, spOpt⟩
    · exact hstable none rfl
    · rcases spOpt with _ | sp
      · exact hstable (some ⟨fns, none⟩) rfl
      · refine hstable (some ⟨fns, some sp⟩) ?_
        by_cases hcond : (decide (sp ≠ "") && !fns.isEmpty) = true
        · have hcond2 := hcond
          rw [Bool.and_eq_true] at hcond2
          have hsp : sp ≠ "" := by simpa using hcond2.1
          have hfns : fns ≠ [] := by
            intro hnil
            rw [hnil] at hcond2
            simp at hcond2
          have hprune : pruneManagedExtraPaths
              (updateManagedExtraPaths live folderFsPath additions (some ⟨fns, some sp⟩)).1
              folderFsPath fns sp =
              ((updateManagedExtraPaths live folderFsPath additions
                (some ⟨fns, some sp⟩)).1, []) := by
            unfold pruneManagedExtraPaths
            by_cases hmn : (managedNamesOf fns).isEmpty = true
            · rw [if_pos hmn]
            · rw [if_neg hmn]
              refine pruneLoop_id_of_all_good folderFsPath
                (normalizeAbsolutePath sp) (managedNamesOf fns) _ ?_
              intro v hv hmatch
              rw [updateManagedExtraPaths_eq] at hv
              have hphase1 : (extraPrunePhase live folderFsPath (some ⟨fns, some sp⟩)).1 =
                  (pruneLoop folderFsPath (normalizeAbsolutePath sp) (managedNamesOf fns)
                    live).1 := by
                simp only [extraPrunePhase, if_pos hcond, pruneManagedExtraPaths, if_neg hmn]
              rcases mem_extraAddLoop folderFsPath additions
                  (extraPrunePhase live folderFsPath (some ⟨fns, some sp⟩)).1
                  (extraPrunePhase live folderFsPath (some ⟨fns, some sp⟩)).2 v hv with
                hret | hadd
              · rw [hphase1] at hret
                exact mem_pruneLoop_retained_good folderFsPath (normalizeAbsolutePath sp)
                  (managedNamesOf fns) live v hret hmatch
              · have hok := h v hadd.1 hadd.2
                unfold extraAdditionOk at hok
                rcases hok hsp hfns with hok | hok
                · exact hok
                · exact absurd hmatch (by rw [hok]; simp)
          simp only [extraPrunePhase, if_pos hcond, hprune]
          rfl
        · show extraPrunePhase _ folderFsPath (some ⟨fns, some sp⟩) = _
          simp only [extraPrunePhase, if_neg hcond]

/-- C1 counterexample: live list ["r","x"], empty managed record, desired
addition "r".  The first run reports changed = false (the final list equals
the live list) but records "r" as managed; the second run then filters "r"
out and re-appends it at the end, producing ["x","r"] and reporting
changed = true. -/
theorem claim1_counterexample :
    (updateManagedAnalysisInclude [] "k" ["r", "x"] "r" true).configChanged = false ∧
    (updateManagedAnalysisInclude
      (updateManagedAnalysisInclude [] "k" ["r", "x"] "r" true).newState "k"
      (updateManagedAnalysisInclude [] "k" ["r", "x"] "r" true).nextLive "r"
      true).configChanged = true := by
  exact ⟨rfl, rfl⟩

/-- C1 witness: concrete second runs reporting changed = false for both
reconcilers under the amended proviso. -/
theorem claim1_amended_idempotence_witness :
    (updateManagedAnalysisInclude
      (updateManagedAnalysisInclude [] "k" ["u"] "r" true).newState "k"
      (updateManagedAnalysisInclude [] "k" ["u"] "r" true).nextLive "r"
      true).configChanged = false ∧
    (updateManagedExtraPaths
      (updateManagedExtraPaths ["u"] "/ws" ["sp"]
        (some ⟨[".venv"], some "/ws/.venv/lib/site-packages"⟩)).1 "/ws" ["sp"]
      (some ⟨[".venv"], some "/ws/.venv/lib/site-packages"⟩)).2 = false := by
  constructor
  · exact claim1_amended_idempotence.1 [] "k" ["u"] "r" (Or.inr (Or.inr (by simp)))
  · refine claim1_amended_idempotence.2 ["u"] "/ws" ["sp"]
      (some ⟨[".venv"], some "/ws/.venv/lib/site-packages"⟩) ?_
    intro a ha hne
    rcases List.mem_singleton.mp ha with rfl
    intro _ _
    exact Or.inr (by rfl)

/-- C8: on a discovery miss the cycle appends one miss line to the log and
leaves every configuration key and the persisted managed record unchanged. -/
theorem claim8_miss_no_writes (host : Host) (editor : Editor) (settings : CycleSettings)
    (hpy : isPythonEditor (some editor) = true)
    (hfolder : (host.workspaceFolderOf editor.fileUri).isSome = true)
    (hmiss : findNearestVenvPython host.fs host.isWin32 editor.fileUri settings.folderNames
      settings.limitToWorkspace
      ((host.workspaceFolderOf editor.fileUri).map WorkspaceFolder.fsPath) = none) :
    (maybeUpdateInterpreter host (some editor) settings).config = host.config ∧
    (maybeUpdateInterpreter host (some editor) settings).state = host.state ∧
    (maybeUpdateInterpreter host (some editor) settings).log =
      host.log ++ ["[miss] No venv found for " ++ render editor.fileUri] := by
  obtain ⟨folder, hfold⟩ := Option.isSome_iff_exists.mp hfolder
  have hres : maybeUpdateInterpreter host (some editor) settings =
      logLine host ("[miss] No venv found for " ++ render editor.fileUri) := by
    unfold maybeUpdateInterpreter
    rw [hpy]
    simp only [Bool.not_true, Bool.false_eq_true, if_neg, not_false_iff]
    rw [hfold]
    rw [hfold] at hmiss
    rw [hmiss]
  rw [hres]
  exact ⟨rfl, rfl, rfl⟩

/-- C8 witness: a concrete host with an empty filesystem; the walk stops at
the workspace boundary without finding a venv and the cycle only logs. -/
theorem claim8_miss_no_writes_witness :
    (maybeUpdateInterpreter
      ⟨fun _ => none, fun _ => true, [], [], fun _ => some ⟨["ws"], "ws", "u"⟩,
        ⟨fun _ => false, fun _ => false, fun _ => false, fun _ => none⟩, false⟩
      (some ⟨"python", ["ws", "m.py"]⟩) ⟨[".venv"], true, false⟩).config =
      (fun _ => none : String → Option CVal) ∧
    (maybeUpdateInterpreter
      ⟨fun _ => none, fun _ => true, [], [], fun _ => some ⟨["ws"], "ws", "u"⟩,
        ⟨fun _ => false, fun _ => false, fun _ => false, fun _ => none⟩, false⟩
      (some ⟨"python", ["ws", "m.py"]⟩) ⟨[".venv"], true, false⟩).state = [] ∧
    (maybeUpdateInterpreter
      ⟨fun _ => none, fun _ => true, [], [], fun _ => some ⟨["ws"], "ws", "u"⟩,
        ⟨fun _ => false, fun _ => false, fun _ => false, fun _ => none⟩, false⟩
      (some ⟨"python", ["ws", "m.py"]⟩) ⟨[".venv"], true, false⟩).log =
      [] ++ ["[miss] No venv found for " ++ render ["ws", "m.py"]] := by
  exact claim8_miss_no_writes
    ⟨fun _ => none, fun _ => true, [], [], fun _ => some ⟨["ws"], "ws", "u"⟩,
      ⟨fun _ => false, fun _ => false, fun _ => false, fun _ => none⟩, false⟩
    ⟨"python", ["ws", "m.py"]⟩ ⟨[".venv"], true, false⟩ rfl rfl
    (by unfold findNearestVenvPython; rw [walkFrom, walkFrom]; rfl)
